import Mathlib

/-!
Verification of the slack-jira-bot core (src/main.py) against its specification.

Strings are modelled as lists of characters (`Str`), matching Python's view of
a string as a sequence of code points.  Each Lean definition below is a direct
translation of the Python function of the same (or snake-case) name.
-/

set_option maxRecDepth 10000

abbrev Str := List Char

/-- The ASCII whitespace characters removed by Python's `str.strip()`
(the embedding restricts attention to ASCII inputs). -/
def pyIsSpace (c : Char) : Bool :=
  c == ' ' || c == '\t' || c == '\x0b' || c == '\x0c' || c == '\n' || c == '\r'

/-- Python `str.lstrip()`. -/
def pyLStrip (l : Str) : Str := l.dropWhile pyIsSpace

/-- Python `str.rstrip()`. -/
def pyRStrip (l : Str) : Str := (l.reverse.dropWhile pyIsSpace).reverse

/-- Python `str.strip()`. -/
def pyStrip (l : Str) : Str := pyRStrip (pyLStrip l)

/-- Python `str.lstrip(cs)`: drop leading characters belonging to the set `cs`. -/
def lstripSet (cs : List Char) (l : Str) : Str := l.dropWhile (fun c => cs.contains c)

/-- Python `str.rstrip(cs)`. -/
def rstripSet (cs : List Char) (l : Str) : Str :=
  (l.reverse.dropWhile (fun c => cs.contains c)).reverse

/-- Python `str.strip(cs)`. -/
def stripSet (cs : List Char) (l : Str) : Str := rstripSet cs (lstripSet cs l)

/-- Python `str.split('\n')`. -/
def splitNl : Str → List Str
  | [] => [[]]
  | c :: r =>
    if c = '\n' then [] :: splitNl r
    else
      match splitNl r with
      | s :: ss => (c :: s) :: ss
      | [] => [[c]]

/-- Python `'\n'.join(...)`. -/
def joinNl : List Str → Str
  | [] => []
  | s :: ss =>
    match ss with
    | [] => s
    | _ :: _ => s ++ '\n' :: joinNl ss

/-- Python `str.split('\n\n')`: left-to-right non-overlapping split on a
blank-line separator; `acc` holds the (reversed) chunk being built. -/
def splitNN : Str → Str → List Str
  | [], acc => [acc.reverse]
  | [c], acc => [(c :: acc).reverse]
  | c :: d :: r, acc =>
    if c = '\n' ∧ d = '\n' then acc.reverse :: splitNN r []
    else splitNN (d :: r) (c :: acc)

/-! ## The ADF document model built by `_parse_description` -/

inductive Mark where
  | em : Mark
  deriving DecidableEq

/-- An inline node `{"type": "text", "text": s, "marks": ...}`. -/
inductive Inline where
  | text (s : Str) (marks : List Mark) : Inline
  deriving DecidableEq

/-- A `listItem` node.  `_parse_description` only ever stores paragraph
blocks inside a list item, so an item is represented by the inline contents
of its paragraphs (the code always emits exactly one). -/
inductive Item where
  | listItem (paragraphs : List (List Inline)) : Item
  deriving DecidableEq

inductive Block where
  | paragraph (content : List Inline) : Block
  | heading (level : Nat) (content : List Inline) : Block
  | bulletList (content : List Item) : Block
  | orderedList (order : Nat) (content : List Item) : Block
  | rule : Block
  deriving DecidableEq

/-- A list item as built by `_parse_description`: one paragraph with one
plain text node. -/
def mkItem (s : Str) : Item := .listItem [[.text s []]]

/-- The fixed placeholder text used by `_parse_description` for empty input. -/
def noDescription : Str := "No description provided".data

/-- The per-line / per-section state of `_parse_description`:
the blocks emitted so far and the pending paragraph accumulator. -/
structure PState where
  blocks : List Block
  para : List Inline
  deriving DecidableEq

/-- `if paragraph_content: content_blocks.append({paragraph ...})` -/
def flushPara (st : PState) : PState :=
  if st.para = [] then st else ⟨st.blocks ++ [.paragraph st.para], []⟩

/-- Head-character test, `line.startswith(single char)`. -/
def headIs (c : Char) (l : Str) : Bool :=
  match l with
  | [] => false
  | d :: _ => d == c

/-- Last-character test, `line.endswith(single char)`. -/
def lastIs (c : Char) (l : Str) : Bool :=
  match l.getLast? with
  | none => false
  | some d => d == c

/-- The text of a bullet line after the marker is removed:
`line.lstrip('•').lstrip('- ').lstrip('* ').strip()`. -/
def bulletText (line : Str) : Str :=
  pyStrip (lstripSet ['*', ' '] (lstripSet ['-', ' '] (lstripSet ['•'] line)))

/-- The text of an ordered-list line: `line.split('.', 1)[1].strip()`
(the guard guarantees a dot is present). -/
def orderedText (line : Str) : Str :=
  pyStrip ((line.dropWhile (fun c => c ≠ '.')).drop 1)

/-- Append a bullet item, continuing the last block when it is already a
`bulletList` (Python mutates `content_blocks[-1]["content"]`). -/
def pushBullet (itm : Item) (blocks : List Block) : List Block :=
  match blocks.getLast? with
  | some (.bulletList items) => blocks.dropLast ++ [.bulletList (items ++ [itm])]
  | _ => blocks ++ [.bulletList [itm]]

/-- Python's `str.isdigit` on one character: true for the code points of
Unicode `Numeric_Type` Decimal or Digit.  Below `0x80` these are exactly the
ASCII digits; beyond ASCII the embedding carries the Latin-1 and
superscript and subscript digit code points (`¹ ² ³ ⁰ ⁴`–`⁹`, `₀`–`₉`), which
`isdigit` accepts although `int` rejects them; the remaining Unicode digit
code points lie outside the domain of every theorem below. -/
def pyIsDigit (c : Char) : Bool :=
  c.isDigit || c == '¹' || c == '²' || c == '³' || c == '⁰' ||
    (0x2074 ≤ c.toNat && c.toNat ≤ 0x2079) || (0x2080 ≤ c.toNat && c.toNat ≤ 0x2089)

/-- Python's `int` applied to a one-character string: defined exactly on the
decimal digits (for ASCII, `'0'`–`'9'`) and a `ValueError` (`none`)
otherwise — in particular on the superscript and subscript digits that pass
`isdigit`. -/
def int1 (c : Char) : Option Nat :=
  if c.isDigit then some (c.toNat - 48) else none

/-- Append an ordered item, continuing the last block when it is already an
`orderedList`; only a fresh list evaluates `int(line[0])` for its start
order (the continuation path never forces `order`), so only the fresh path
can raise (`none`). -/
def pushOrdered (itm : Item) (order : Option Nat) (blocks : List Block) :
    Option (List Block) :=
  match blocks.getLast? with
  | some (.orderedList o items) => some (blocks.dropLast ++ [.orderedList o (items ++ [itm])])
  | _ =>
    match order with
    | some o => some (blocks ++ [.orderedList o [itm]])
    | none => none

/-- One iteration of the `for line in lines` loop of `_parse_description`;
`none` is the `ValueError` raised by `int(line[0])` when `line[0]` passes
`isdigit()` without being a decimal digit (e.g. `'²'`). -/
def processLine (raw : Str) (st : PState) : Option PState :=
  let line := pyStrip raw
  if line = [] then some st
  else if headIs '*' line && lastIs '*' line && decide (2 < line.length) then
    let st := flushPara st
    some ⟨st.blocks ++ [.heading 3 [.text (stripSet ['*'] line) []]], st.para⟩
  else if headIs '•' line || ['-', ' '].isPrefixOf line || ['*', ' '].isPrefixOf line then
    let st := flushPara st
    some ⟨pushBullet (mkItem (bulletText line)) st.blocks, st.para⟩
  else if decide (2 < line.length) && pyIsDigit (line.headD ' ') && line.getD 1 ' ' == '.' then
    let st := flushPara st
    match pushOrdered (mkItem (orderedText line)) (int1 (line.headD ' ')) st.blocks with
    | some bs => some ⟨bs, st.para⟩
    | none => none
  else if ['-', '-', '-'].isPrefixOf line then
    let st := flushPara st
    some ⟨st.blocks ++ [.rule], st.para⟩
  else if headIs '_' line && lastIs '_' line then
    some ⟨st.blocks, st.para ++ [.text (stripSet ['_'] line) [.em]]⟩
  else
    some ⟨st.blocks, (if st.para = [] then [] else st.para ++ [.text ['\n'] []]) ++ [.text line []]⟩

/-- The `for line in lines` loop; an exception propagates out of the loop. -/
def processLines : List Str → PState → Option PState
  | [], st => some st
  | l :: ls, st =>
    match processLine l st with
    | some st' => processLines ls st'
    | none => none

/-- One iteration of the `for section in sections` loop. -/
def processSection (sec : Str) (blocks : List Block) : Option (List Block) :=
  if pyStrip sec = [] then some blocks
  else
    match processLines (splitNl sec) ⟨blocks, []⟩ with
    | some st => some (flushPara st).blocks
    | none => none

/-- The `for section in sections` loop; an exception propagates out. -/
def processSections : List Str → List Block → Option (List Block)
  | [], bs => some bs
  | s :: ss, bs =>
    match processSection s bs with
    | some bs' => processSections ss bs'
    | none => none

/-- `JiraIntegration._parse_description`: markdown text to ADF blocks;
`none` is the uncaught `ValueError` escaping from the ordered-list branch. -/
def parseDescription (description : Str) : Option (List Block) :=
  if description = [] then some [.paragraph [.text noDescription []]]
  else
    match processSections (splitNN description []) [] with
    | some blocks =>
        some (if blocks = [] then [.paragraph [.text description []]] else blocks)
    | none => none

/-! ## `sanitize_control_chars` -/

/-- Membership in the regex class `[\x00-\x08\x0B\x0C\x0E-\x1F]` removed by
`sanitize_control_chars`. -/
def strippedBySanitize (c : Char) : Bool :=
  c.toNat ≤ 8 || c.toNat == 11 || c.toNat == 12 || (14 ≤ c.toNat && c.toNat ≤ 31)

/-- `sanitize_control_chars`: delete the characters of the regex class,
keeping everything else in order. -/
def sanitizeControlChars (l : Str) : Str := l.filter (fun c => !(strippedBySanitize c))

/-! ## A model of JSON values, `json.dumps`-style serialization and
`json.loads`-style parsing.  The embedding restricts JSON numbers to
integers (the float case never occurs in the generated schema). -/

inductive Json where
  | null : Json
  | bool (b : Bool) : Json
  | num (n : Int) : Json
  | str (s : Str) : Json
  | arr (elems : List Json) : Json
  | obj (members : List (Str × Json)) : Json

def hexDigitChar (n : Nat) : Char :=
  if n < 10 then Char.ofNat (48 + n) else Char.ofNat (87 + n)

/-- Escape one character for a JSON string literal. -/
def escapeChar (c : Char) : Str :=
  if c = '"' then ['\\', '"']
  else if c = '\\' then ['\\', '\\']
  else if c = '\n' then ['\\', 'n']
  else if c = '\t' then ['\\', 't']
  else if c = '\r' then ['\\', 'r']
  else if c.toNat < 32 then
    '\\' :: 'u' :: '0' :: '0' :: [hexDigitChar (c.toNat / 16), hexDigitChar (c.toNat % 16)]
  else [c]

def escapeString (s : Str) : Str := (s.map escapeChar).flatten

/-- Decimal digits of a natural number, most significant first. -/
def natToChars (n : Nat) : Str :=
  if n < 10 then [Char.ofNat (48 + n)]
  else natToChars (n / 10) ++ [Char.ofNat (48 + n % 10)]
decreasing_by exact Nat.div_lt_self (by omega) (by omega)

def intToChars (i : Int) : Str :=
  if i < 0 then '-' :: natToChars i.natAbs else natToChars i.natAbs

mutual
/-- Canonical serialization of a JSON value (single line, no extra spaces). -/
def serJson : Json → Str
  | .null => "null".data
  | .bool true => "true".data
  | .bool false => "false".data
  | .num n => intToChars n
  | .str s => '"' :: (escapeString s ++ ['"'])
  | .arr xs => '[' :: (serElems xs ++ [']'])
  | .obj kvs => '{' :: (serMembers kvs ++ ['}'])
def serElems : List Json → Str
  | [] => []
  | [x] => serJson x
  | x :: xs => serJson x ++ ',' :: serElems xs
def serMembers : List (Str × Json) → Str
  | [] => []
  | [kv] => '"' :: (escapeString kv.1 ++ '"' :: ':' :: serJson kv.2)
  | kv :: kvs => ('"' :: (escapeString kv.1 ++ '"' :: ':' :: serJson kv.2)) ++ ',' :: serMembers kvs
end

/-- The whitespace skipped between JSON tokens by `json.loads`. -/
def jsonWs (c : Char) : Bool := c == '\t' || c == ' ' || c == '\n' || c == '\r'

def skipWs (l : Str) : Str := l.dropWhile jsonWs

def hexVal (c : Char) : Option Nat :=
  if '0' ≤ c ∧ c ≤ '9' then some (c.toNat - 48)
  else if 'a' ≤ c ∧ c ≤ 'f' then some (c.toNat - 87)
  else if 'A' ≤ c ∧ c ≤ 'F' then some (c.toNat - 55)
  else none

/-- Parse the body of a JSON string literal (after the opening quote) up to
the closing quote; raw control characters are rejected as `json.loads` does
in strict mode. -/
def unescape (e : Char) : Option Char :=
  if e = '"' then some '"'
  else if e = '\\' then some '\\'
  else if e = '/' then some '/'
  else if e = 'n' then some '\n'
  else if e = 't' then some '\t'
  else if e = 'r' then some '\r'
  else if e = 'b' then some '\x08'
  else if e = 'f' then some '\x0c'
  else none

def parseStringBody : Str → Str → Option (Str × Str)
  | [], _ => none
  | c :: r, acc =>
    if c = '"' then some (acc, r)
    else if c = '\\' then
      match r with
      | [] => none
      | e :: r' =>
        if e = 'u' then
          match r' with
          | h1 :: h2 :: h3 :: h4 :: r2 =>
            match hexVal h1, hexVal h2, hexVal h3, hexVal h4 with
            | some a, some b, some c, some d =>
              parseStringBody r2 (acc ++ [Char.ofNat (((a * 16 + b) * 16 + c) * 16 + d)])
            | _, _, _, _ => none
          | _ => none
        else
          match unescape e with
          | some u => parseStringBody r' (acc ++ [u])
          | none => none
    else if c.toNat < 32 then none
    else parseStringBody r (acc ++ [c])
termination_by l _ => l.length
decreasing_by all_goals (simp only [List.length_cons]; omega)

def parseDigits : Str → Nat → Nat × Str
  | c :: r, acc => if c.isDigit then parseDigits r (acc * 10 + (c.toNat - 48)) else (acc, c :: r)
  | [], acc => (acc, [])

/-- Parse an integer literal; a following `.`/`e`/`E` (a float) is rejected
by this integer-restricted model. -/
def finishNum (neg : Bool) (l : Str) : Option (Json × Str) :=
  match l with
  | c :: _ =>
    if c.isDigit then
      let p := parseDigits l 0
      match p.2 with
      | [] => some (.num (if neg then -(p.1 : Int) else (p.1 : Int)), p.2)
      | d :: _ =>
        if d = '.' ∨ d = 'e' ∨ d = 'E' then none
        else some (.num (if neg then -(p.1 : Int) else (p.1 : Int)), p.2)
    else none
  | [] => none

/-- Match an expected keyword tail (e.g. `ull` after an `n`). -/
def expectChars (pat l : Str) : Option Str :=
  if pat.isPrefixOf l then some (l.drop pat.length) else none

mutual
/-- Recursive-descent JSON value parser (fuel-indexed). -/
def parseVal : Nat → Str → Option (Json × Str)
  | 0, _ => none
  | fuel + 1, l =>
    match skipWs l with
    | [] => none
    | c :: r =>
      if c = 'n' then (expectChars ['u', 'l', 'l'] r).map (fun r' => (.null, r'))
      else if c = 't' then (expectChars ['r', 'u', 'e'] r).map (fun r' => (.bool true, r'))
      else if c = 'f' then (expectChars ['a', 'l', 's', 'e'] r).map (fun r' => (.bool false, r'))
      else if c = '"' then (parseStringBody r []).map (fun p => (.str p.1, p.2))
      else if c = '[' then
        match skipWs r with
        | [] => none
        | d :: r' =>
          if d = ']' then some (.arr [], r')
          else (parseElems fuel (d :: r')).map (fun p => (.arr p.1, p.2))
      else if c = '{' then
        match skipWs r with
        | [] => none
        | d :: r' =>
          if d = '}' then some (.obj [], r')
          else (parseMembers fuel (d :: r')).map (fun p => (.obj p.1, p.2))
      else if c = '-' then finishNum true r
      else if c.isDigit then finishNum false (c :: r)
      else none
def parseElems : Nat → Str → Option (List Json × Str)
  | 0, _ => none
  | fuel + 1, l =>
    match parseVal fuel l with
    | none => none
    | some (v, r) =>
      match skipWs r with
      | [] => none
      | d :: r' =>
        if d = ',' then
          match parseElems fuel r' with
          | some (vs, r'') => some (v :: vs, r'')
          | none => none
        else if d = ']' then some ([v], r')
        else none
def parseMembers : Nat → Str → Option (List (Str × Json) × Str)
  | 0, _ => none
  | fuel + 1, l =>
    match skipWs l with
    | [] => none
    | c :: r =>
      if c = '"' then
        match parseStringBody r [] with
        | none => none
        | some (k, r') =>
          match skipWs r' with
          | [] => none
          | d :: r'' =>
            if d = ':' then
              match parseVal fuel r'' with
              | none => none
              | some (v, r3) =>
                match skipWs r3 with
                | [] => none
                | e :: r4 =>
                  if e = ',' then
                    match parseMembers fuel r4 with
                    | some (kvs, r5) => some ((k, v) :: kvs, r5)
                    | none => none
                  else if e = '}' then some ([(k, v)], r4)
                  else none
            else none
      else none
end

/-- Model of `json.loads`: parse one value and require only whitespace after
it. -/
def jsonLoads (l : Str) : Option Json :=
  match parseVal (l.length + 1) l with
  | some (v, r) => if skipWs r = [] then some v else none
  | none => none

/-! ## The LLM JSON extractor of `generate_tasks_from_prompt` -/

/-- The predicate used on each line by `remove_code_fences`:
`line.strip().startswith(triple backtick)`. -/
def isFenceLine (l : Str) : Bool := ['`', '`', '`'].isPrefixOf (pyStrip l)

/-- Index of the last element satisfying `p` (the Python loop scans from the
end and stops at the first hit). -/
def lastIdxWhere (p : Str → Bool) : List Str → Option Nat
  | [] => none
  | l :: ls =>
    match lastIdxWhere p ls with
    | some i => some (i + 1)
    | none => if p l then some 0 else none

/-- `remove_code_fences`: strip a leading code fence and everything from the
last fence line onward, keeping the interior. -/
def removeCodeFences (text : Str) : Str :=
  let t := pyStrip text
  if ['`', '`', '`'].isPrefixOf t then
    let lines := splitNl t
    match lastIdxWhere isFenceLine lines with
    | some i => if 0 < i then pyStrip (joinNl ((lines.take i).drop 1)) else t
    | none => t
  else t

/-- The quote/escape-aware brace scan of `extract_braced_json`.  `seg` models
the slice `s[start_idx : i+1]` accumulated since the first top-level brace
(`none` while `start_idx` is `-1`). -/
def extractScan : Str → Bool → Bool → Nat → Option Str → Option Str
  | [], _, _, _, _ => none
  | ch :: rest, inStr, esc, depth, seg =>
    if inStr then
      if esc then extractScan rest true false depth (seg.map (· ++ [ch]))
      else if ch = '\\' then extractScan rest true true depth (seg.map (· ++ [ch]))
      else if ch = '"' then extractScan rest false false depth (seg.map (· ++ [ch]))
      else extractScan rest true false depth (seg.map (· ++ [ch]))
    else
      if ch = '"' then extractScan rest true false depth (seg.map (· ++ [ch]))
      else if ch = '{' then
        if depth = 0 then extractScan rest false false 1 (some ['{'])
        else extractScan rest false false (depth + 1) (seg.map (· ++ [ch]))
      else if ch = '}' then
        if depth = 0 then extractScan rest false false 0 (seg.map (· ++ [ch]))
        else if depth = 1 then
          match seg with
          | some s => some (s ++ ['}'])
          | none => extractScan rest false false 0 none
        else extractScan rest false false (depth - 1) (seg.map (· ++ [ch]))
      else extractScan rest inStr esc depth (seg.map (· ++ [ch]))

/-- `extract_braced_json`: the first balanced top-level JSON object slice. -/
def extractBracedJson (text : Str) : Option Str := extractScan text false false 0 none

def firstIdxOf (c : Char) (l : Str) : Option Nat := l.findIdx? (· = c)

def lastIdxOf (c : Char) (l : Str) : Option Nat :=
  match l.reverse.findIdx? (· = c) with
  | some i => some (l.length - 1 - i)
  | none => none

/-- Stage 5 of the extractor: substring from the first `x7b` to the last
`x7d` (`raw.find`/`raw.rfind` in the source). -/
def bracedFallback (raw : Str) : Option Json :=
  match firstIdxOf '{' raw, lastIdxOf '}' raw with
  | some s, some e => if s < e then jsonLoads ((raw.drop s).take (e + 1 - s)) else none
  | _, _ => none

/-- Stages 4 and 5 of the extractor: balanced-object scan, then first/last
brace fallback. -/
def extractStages45 (raw : Str) : Option Json :=
  match extractBracedJson raw with
  | some seg =>
    match jsonLoads seg with
    | some v => some v
    | none => bracedFallback raw
  | none => bracedFallback raw

/-- The whole extraction pipeline of `generate_tasks_from_prompt`
(`none` models the raised `JSONDecodeError`). -/
def extractJson (content : Str) : Option Json :=
  let raw := sanitizeControlChars (removeCodeFences content)
  match jsonLoads raw with
  | some v => some v
  | none => extractStages45 raw

/-! ## `format_description` -/

/-- `format_description`: the canonical markdown fed to the Converter. -/
def formatDescription (goal description : Str) (acceptanceCriteria : List Str) (userId : Str) : Str :=
  let bullets := joinNl (acceptanceCriteria.map (fun c => '•' :: ' ' :: c))
  "*Goal*\n".data ++ goal ++
  "\n\n*Description*\n".data ++ description ++
  "\n\n*Acceptance Criteria*\n".data ++ bullets ++
  "\n\n---\n_Created via Slack by <@".data ++ userId ++ ">_".data

/-! ## The issue-creation client (`JiraIntegration`) -/

/-- Configured retry policy: `Retry(total=5, backoff_factor=0.5,
status_forcelist=[429, 500, 502, 503, 504], ...)`. -/
def statusForcelist : List Nat := [429, 500, 502, 503, 504]

def retryTotal : Nat := 5

inductive SendOutcome where
  | response (status : Nat) : SendOutcome
  | retriesExhausted : SendOutcome
  deriving DecidableEq

/-- Model of the urllib3 retry layer mounted on the session: a response whose
status is in `status_forcelist` is retried (after exponential backoff, not
modelled) while budget remains; any other response is returned as is; an
exhausted budget surfaces as a retry-error failure.  `respond i` is the
status the server returns to the i-th request. -/
def retryLoop (respond : Nat → Nat) : Nat → Nat → SendOutcome
  | attempt, 0 =>
    if respond attempt ∈ statusForcelist then .retriesExhausted
    else .response (respond attempt)
  | attempt, n + 1 =>
    if respond attempt ∈ statusForcelist then retryLoop respond (attempt + 1) n
    else .response (respond attempt)

/-- One outbound request through the session's retry adapter. -/
def sessionSend (respond : Nat → Nat) : SendOutcome := retryLoop respond 0 retryTotal

structure HttpResp where
  status : Nat
  key : Str
  body : Str
  deriving DecidableEq

structure SubPayload where
  project : Str
  parent : Str
  summary : Str
  description : List Block
  issuetype : Str
  deriving DecidableEq

inductive ReqError where
  | http (status : Nat) (body : Str) : ReqError
  | conn : ReqError
  deriving DecidableEq

inductive SubResult where
  | ok (key : Str) (url : Str) : SubResult
  | fail (e : ReqError) (details : Str) : SubResult
  deriving DecidableEq

def browseUrl (jiraUrl key : Str) : Str := jiraUrl ++ "/browse/".data ++ key

/-- Python `str.lower()` restricted to ASCII. -/
def pyLower (l : Str) : Str :=
  l.map (fun c => if 'A' ≤ c ∧ c ≤ 'Z' then Char.ofNat (c.toNat + 32) else c)

/-- `_subtask_type_alternatives` as computed in `JiraIntegration.__init__`. -/
def subtaskTypeAlternatives (subtaskType : Str) : List Str :=
  let alts := [subtaskType]
  let alts :=
    if pyLower subtaskType = "sub-task".data ∧ ¬ "subtask".data ∈ alts.map pyLower then
      alts ++ ["Subtask".data]
    else alts
  if pyLower subtaskType = "subtask".data ∧ ¬ "sub-task".data ∈ alts.map pyLower then
    alts ++ ["Sub-task".data]
  else alts

/-- The candidate loop of `criar_subtask`.  `send p` is `none` for a network
exception without response, `some r` for a received response; a status in
[400, 600) makes `raise_for_status` raise.  A 400 with candidates remaining
advances to the next candidate with only the issuetype name swapped; a
no-response exception with candidates remaining also advances; any other
raised error is surfaced immediately as the failure result. -/
def subtaskAttempts (jiraUrl : Str) (send : SubPayload → Option HttpResp) (base : SubPayload) : List Str → SubResult
  | [] => .fail .conn []
  | [name] =>
    match send { base with issuetype := name } with
    | none => .fail .conn []
    | some r =>
      if 400 ≤ r.status ∧ r.status < 600 then .fail (.http r.status r.body) r.body
      else .ok r.key (browseUrl jiraUrl r.key)
  | name :: next :: rest =>
    match send { base with issuetype := name } with
    | none => subtaskAttempts jiraUrl send base (next :: rest)
    | some r =>
      if r.status = 400 then subtaskAttempts jiraUrl send base (next :: rest)
      else if 400 ≤ r.status ∧ r.status < 600 then .fail (.http r.status r.body) r.body
      else .ok r.key (browseUrl jiraUrl r.key)

/-- `JiraIntegration.criar_subtask`: build the payload (description through
`_parse_description`, whose `ValueError` would propagate before any request
is sent) and run the candidate loop. -/
def criarSubtask (jiraUrl projectKey : Str) (alternatives : List Str)
    (send : SubPayload → Option HttpResp) (parentKey summary desc : Str) :
    Option SubResult :=
  match parseDescription desc with
  | some blocks =>
      some (subtaskAttempts jiraUrl send
        { project := projectKey, parent := parentKey, summary := summary,
          description := blocks, issuetype := alternatives.headD [] }
        alternatives)
  | none => none

/-! ## Specification-side vocabulary used in the theorem statements -/

/-- The content of a JSON string literal as the scanner sees it: a sequence
of units, each either an escape pair (backslash plus any character) or a
single character that is neither an unescaped quote nor a backslash.  The
character `x7d` is allowed, which is the point of claim C2. -/
inductive StrContent : Str → Prop where
  | nil : StrContent []
  | esc (c : Char) (cs l : Str) : StrContent cs → l = '\\' :: c :: cs → StrContent l
  | plain (c : Char) (cs l : Str) :
      c ≠ '"' → c ≠ '\\' → StrContent cs → l = c :: cs → StrContent l

/-- The body of a balanced JSON object text (what stands between the opening
and closing braces): string literals, nested balanced objects, and any other
non-brace non-quote characters. -/
inductive ObjBody : Str → Prop where
  | nil : ObjBody []
  | str (sc rest l : Str) :
      StrContent sc → ObjBody rest → l = '"' :: (sc ++ '"' :: rest) → ObjBody l
  | nest (inner rest l : Str) :
      ObjBody inner → ObjBody rest → l = '{' :: (inner ++ '}' :: rest) → ObjBody l
  | other (c : Char) (rest l : Str) :
      c ≠ '"' → c ≠ '{' → c ≠ '}' → ObjBody rest → l = c :: rest → ObjBody l

/-- No two consecutive newline characters (no blank-line separator inside). -/
def noDoubleNl : Str → Bool
  | [] => true
  | [_] => true
  | c :: d :: r => !(c == '\n' && d == '\n') && noDoubleNl (d :: r)

/-- A bullet-item text that survives the marker-stripping of
`_parse_description` unchanged: non-empty, single-line, not beginning with a
marker or whitespace and not ending with whitespace. -/
def bulletClean (x : Str) : Prop :=
  x ≠ [] ∧ '\n' ∉ x ∧
  (∀ h, x.head? = some h → pyIsSpace h = false ∧ h ≠ '-' ∧ h ≠ '*') ∧
  (∀ h, x.getLast? = some h → pyIsSpace h = false)

/-- Boundary tokens that may legally follow a serialized JSON value inside a
larger serialization (or the end of input). -/
def jsonBoundary (l : Str) : Prop :=
  match l with
  | [] => True
  | c :: _ => c = ',' ∨ c = '}' ∨ c = ']'

/-- Fence wrapping with trailing prose only: the shape whose extraction the
amended claim C3 relates to extraction of the interior alone. -/
def fenceWrap (interior prose : Str) : Str :=
  "```json\n".data ++ interior ++ "\n```\n".data ++ prose

/-- The first chunk of a blank-line split: everything before the first
occurrence of two consecutive newlines. -/
def headChunk : Str → Str
  | [] => []
  | [c] => [c]
  | c :: d :: r => if c = '\n' ∧ d = '\n' then [] else c :: headChunk (d :: r)

mutual
/-- Fuel measure for the parser: enough fuel to parse the serialization. -/
def jsize : Json → Nat
  | .null => 1
  | .bool _ => 1
  | .num _ => 1
  | .str _ => 1
  | .arr xs => 1 + jsizeElems xs
  | .obj kvs => 1 + jsizeMembers kvs
def jsizeElems : List Json → Nat
  | [] => 0
  | x :: xs => 1 + max (jsize x) (jsizeElems xs)
def jsizeMembers : List (Str × Json) → Nat
  | [] => 0
  | kv :: kvs => 1 + max (jsize kv.2) (jsizeMembers kvs)
end

/-! # Helper lemmas -/

theorem charEq_iff_toNat {c d : Char} : c = d ↔ c.toNat = d.toNat := by
  constructor
  · intro h; rw [h]
  · intro h
    apply Char.ext
    exact UInt32.ext h

/-! # Claim C4: control-character sanitation -/

/-- C4 (amended): `sanitize_control_chars` removes exactly the C0 control
characters (code points below 0x20) other than horizontal tab, newline and
carriage return, leaving every other character — including DEL (0x7F) —
unchanged in order. -/
theorem sanitize_control_chars_filter (l : Str) :
    sanitizeControlChars l =
      l.filter (fun c => !(decide (c.toNat < 32) && !(c.toNat == 9) && !(c.toNat == 10) && !(c.toNat == 13))) := by
  unfold sanitizeControlChars
  apply List.filter_congr
  intro c _
  congr 1
  unfold strippedBySanitize
  rw [Bool.eq_iff_iff]
  simp only [Bool.or_eq_true, Bool.and_eq_true, decide_eq_true_eq, beq_iff_eq,
    Bool.not_eq_true', decide_eq_false_iff_not, beq_eq_false_iff_ne, ne_eq]
  omega

/-- C4 counterexample: DEL (0x7F) is an ASCII control character that is not
tab, newline or carriage return, yet `sanitize_control_chars` keeps it, so
the claim "removes every ASCII control character except 0x0A, 0x0D, 0x09"
fails at the input consisting of the single character 0x7F. -/
theorem sanitize_keeps_del :
    sanitizeControlChars ['\x7f'] = ['\x7f'] ∧ ('\x7f').toNat = 127 := by
  constructor
  · rfl
  · rfl


/-! # Claim C6: the retry layer -/

/-- C6 (amended): the session's retry layer retries exactly the statuses of
the configured forcelist — 429, 500, 502, 503, 504 (not every 5xx) — up to
the fixed budget of `retryTotal` retries, after which the request surfaces
as a failure; any response outside the forcelist, in particular every 4xx
other than 429, is returned after a single request without retrying. -/
theorem retry_policy_bounded :
    (∀ s : Nat, s ∈ statusForcelist ↔ (s = 429 ∨ s = 500 ∨ s = 502 ∨ s = 503 ∨ s = 504)) ∧
    (∀ (respond : Nat → Nat) (s : Nat), respond 0 = s → 400 ≤ s → s < 500 → s ≠ 429 →
      sessionSend respond = .response s) ∧
    (∀ respond : Nat → Nat, (∀ i, respond i ∈ statusForcelist) →
      sessionSend respond = .retriesExhausted) := by
  refine ⟨?_, ?_, ?_⟩
  · intro s
    simp only [statusForcelist, List.mem_cons, List.not_mem_nil, or_false]
  · intro respond s h0 h4 h5 hne
    unfold sessionSend retryTotal retryLoop
    rw [if_neg]
    · rw [h0]
    · rw [h0]
      simp only [statusForcelist, List.mem_cons, List.not_mem_nil, or_false]
      omega
  · intro respond hall
    unfold sessionSend retryTotal
    have : ∀ (n attempt : Nat), retryLoop respond attempt n = .retriesExhausted := by
      intro n
      induction n with
      | zero => intro attempt; unfold retryLoop; rw [if_pos (hall attempt)]
      | succ k ih => intro attempt; unfold retryLoop; rw [if_pos (hall attempt)]; exact ih (attempt + 1)
    exact this 5 0

/-- C6 counterexample: HTTP 501 is a 5xx status but is not in the configured
forcelist, so it is not retried — the server would answer 200 to a second
request, yet the session returns 501 after a single request.  This falsifies
"retries ... every 5xx status". -/
theorem retry_not_every_5xx :
    sessionSend (fun i => if i = 0 then 501 else 200) = .response 501 ∧
    500 ≤ 501 ∧ 501 < 600 := by
  refine ⟨rfl, by omega, by omega⟩

/-- Witness for `retry_policy_bounded` at concrete inputs: a constant 404
responder is answered after one request, and a constant 503 responder
exhausts the retry budget. -/
theorem retry_policy_bounded_witness :
    sessionSend (fun _ => 404) = .response 404 ∧
    sessionSend (fun _ => 503) = .retriesExhausted := by
  constructor
  · exact retry_policy_bounded.2.1 (fun _ => 404) 404 rfl (by omega) (by omega) (by omega)
  · exact retry_policy_bounded.2.2 (fun _ => 503) (fun i => by simp [statusForcelist])

/-! # Claim C5: sub-issue type fallback in `criar_subtask` -/

theorem subtaskAttempts_cons2_some (jiraUrl : Str) (send : SubPayload → Option HttpResp)
    (base : SubPayload) (n1 n2 : Str) (rest : List Str) (r : HttpResp)
    (h : send { base with issuetype := n1 } = some r) :
    subtaskAttempts jiraUrl send base (n1 :: n2 :: rest) =
      (if r.status = 400 then subtaskAttempts jiraUrl send base (n2 :: rest)
       else if 400 ≤ r.status ∧ r.status < 600 then .fail (.http r.status r.body) r.body
       else .ok r.key (browseUrl jiraUrl r.key)) := by
  conv_lhs => rw [subtaskAttempts.eq_def]
  simp only [h]

theorem subtaskAttempts_single_some (jiraUrl : Str) (send : SubPayload → Option HttpResp)
    (base : SubPayload) (name : Str) (r : HttpResp)
    (h : send { base with issuetype := name } = some r) :
    subtaskAttempts jiraUrl send base [name] =
      (if 400 ≤ r.status ∧ r.status < 600 then .fail (.http r.status r.body) r.body
       else .ok r.key (browseUrl jiraUrl r.key)) := by
  conv_lhs => rw [subtaskAttempts.eq_def]
  simp only [h]

/-- C5: the candidate loop of `criar_subtask` (a) on HTTP 400 with another
candidate remaining, resends the same payload with only the issuetype name
swapped (the recursion proceeds to the next candidate applied to the same
base payload); (b) surfaces any non-400 failure status immediately without
trying further candidates; (c) when every candidate yields HTTP 400, returns
a failure carrying the last candidate's error. -/
theorem criar_subtask_fallback_policy :
    (∀ (jiraUrl : Str) (send : SubPayload → Option HttpResp) (base : SubPayload)
        (n1 n2 : Str) (rest : List Str) (r : HttpResp),
      send { base with issuetype := n1 } = some r → r.status = 400 →
      subtaskAttempts jiraUrl send base (n1 :: n2 :: rest) =
        subtaskAttempts jiraUrl send base (n2 :: rest)) ∧
    (∀ (jiraUrl : Str) (send : SubPayload → Option HttpResp) (base : SubPayload)
        (n1 : Str) (rest : List Str) (r : HttpResp),
      send { base with issuetype := n1 } = some r → 400 < r.status → r.status < 600 →
      subtaskAttempts jiraUrl send base (n1 :: rest) = .fail (.http r.status r.body) r.body) ∧
    (∀ (jiraUrl : Str) (send : SubPayload → Option HttpResp) (base : SubPayload)
        (names : List Str) (lastName : Str) (r : HttpResp),
      (∀ n ∈ names, ∃ r', send { base with issuetype := n } = some r' ∧ r'.status = 400) →
      send { base with issuetype := lastName } = some r → r.status = 400 →
      subtaskAttempts jiraUrl send base (names ++ [lastName]) =
        .fail (.http r.status r.body) r.body) := by
  refine ⟨?_, ?_, ?_⟩
  · intro jiraUrl send base n1 n2 rest r hsend h400
    rw [subtaskAttempts_cons2_some jiraUrl send base n1 n2 rest r hsend]
    rw [if_pos h400]
  · intro jiraUrl send base n1 rest r hsend hgt hlt
    cases rest with
    | nil =>
      rw [subtaskAttempts_single_some jiraUrl send base n1 r hsend]
      rw [if_pos ⟨by omega, hlt⟩]
    | cons next rest' =>
      rw [subtaskAttempts_cons2_some jiraUrl send base n1 next rest' r hsend]
      rw [if_neg (by omega)]
      rw [if_pos ⟨by omega, hlt⟩]
  · intro jiraUrl send base names lastName r hall hsend h400
    induction names with
    | nil =>
      simp only [List.nil_append]
      rw [subtaskAttempts_single_some jiraUrl send base lastName r hsend]
      rw [if_pos ⟨by omega, by omega⟩, h400]
    | cons n names' ih =>
      obtain ⟨r', hsend', h400'⟩ := hall n (by simp)
      have hall' : ∀ m ∈ names', ∃ r'', send { base with issuetype := m } = some r'' ∧ r''.status = 400 := by
        intro m hm
        exact hall m (by simp [hm])
      have ihx := ih hall'
      cases names' with
      | nil =>
        simp only [List.cons_append, List.nil_append] at ihx ⊢
        rw [subtaskAttempts_cons2_some jiraUrl send base n lastName [] r' hsend']
        rw [if_pos h400']
        exact ihx
      | cons m ms =>
        simp only [List.cons_append] at ihx ⊢
        rw [subtaskAttempts_cons2_some jiraUrl send base n m (ms ++ [lastName]) r' hsend']
        rw [if_pos h400']
        exact ihx

/-- Witness for `criar_subtask_fallback_policy` at concrete inputs: a sender
that answers 400 for the type name "Sub-task" and 201 otherwise, a sender
that always answers 403, and a sender that always answers 400. -/
theorem criar_subtask_fallback_policy_witness :
    (subtaskAttempts "https://j".data
        (fun p => if p.issuetype = "Sub-task".data then some ⟨400, [], "bad type".data⟩
                  else some ⟨201, "K-2".data, []⟩)
        ⟨"P".data, "K-1".data, [], [], "Sub-task".data⟩
        ["Sub-task".data, "Subtask".data] =
      subtaskAttempts "https://j".data
        (fun p => if p.issuetype = "Sub-task".data then some ⟨400, [], "bad type".data⟩
                  else some ⟨201, "K-2".data, []⟩)
        ⟨"P".data, "K-1".data, [], [], "Sub-task".data⟩
        ["Subtask".data]) ∧
    (subtaskAttempts "https://j".data (fun _ => some ⟨403, [], "forbidden".data⟩)
        ⟨"P".data, "K-1".data, [], [], "Sub-task".data⟩
        ["Sub-task".data, "Subtask".data] =
      .fail (.http 403 "forbidden".data) "forbidden".data) ∧
    (subtaskAttempts "https://j".data (fun _ => some ⟨400, [], "bad".data⟩)
        ⟨"P".data, "K-1".data, [], [], "Sub-task".data⟩
        ["Sub-task".data, "Subtask".data] =
      .fail (.http 400 "bad".data) "bad".data) := by
  refine ⟨?_, ?_, ?_⟩
  · exact criar_subtask_fallback_policy.1 _ _ _ _ _ _ ⟨400, [], "bad type".data⟩ (by decide) rfl
  · exact criar_subtask_fallback_policy.2.1 _ _ _ _ _ ⟨403, [], "forbidden".data⟩ rfl (by decide) (by decide)
  · exact criar_subtask_fallback_policy.2.2 _ _ _ ["Sub-task".data] "Subtask".data
      ⟨400, [], "bad".data⟩ (fun n hn => ⟨⟨400, [], "bad".data⟩, rfl, rfl⟩) rfl rfl

/-! # String helper lemmas -/

theorem getLast?_cons_ne_nil {α : Type} (a : α) {l : List α} (h : l ≠ []) :
    (a :: l).getLast? = l.getLast? := by
  cases l with
  | nil => exact absurd rfl h
  | cons b t => simp [List.getLast?_cons_cons]

theorem pyLStrip_cons_not {c : Char} (l : Str) (h : pyIsSpace c = false) :
    pyLStrip (c :: l) = c :: l := by
  unfold pyLStrip
  rw [List.dropWhile_cons_of_neg (by simp [h])]

theorem pyRStrip_of_getLast {c : Char} {l : Str} (h : l.getLast? = some c)
    (hc : pyIsSpace c = false) : pyRStrip l = l := by
  unfold pyRStrip
  have hrev : l.reverse.head? = some c := by rw [List.head?_reverse]; exact h
  cases hl : l.reverse with
  | nil => simp [hl] at hrev
  | cons d t =>
    rw [hl] at hrev
    simp only [List.head?_cons, Option.some.injEq] at hrev
    subst hrev
    rw [List.dropWhile_cons_of_neg (by simp [hc])]
    rw [← hl, List.reverse_reverse]

theorem pyRStrip_nil : pyRStrip [] = [] := rfl

theorem pyStrip_eq_self {c d : Char} {l : Str} (hh : l.head? = some c)
    (hc : pyIsSpace c = false) (hl : l.getLast? = some d) (hd : pyIsSpace d = false) :
    pyStrip l = l := by
  unfold pyStrip
  cases l with
  | nil => rfl
  | cons a t =>
    simp only [List.head?_cons, Option.some.injEq] at hh
    subst hh
    rw [pyLStrip_cons_not t hc]
    exact pyRStrip_of_getLast hl hd

theorem pyStrip_all_ws {l : Str} (h : ∀ c ∈ l, pyIsSpace c = true) : pyStrip l = [] := by
  unfold pyStrip pyLStrip
  rw [List.dropWhile_eq_nil_iff.mpr (by intro x hx; simp [h x hx])]
  rfl

theorem pyStrip_cons_ne_nil {c : Char} (l : Str) (hc : pyIsSpace c = false) :
    pyStrip (c :: l) ≠ [] := by
  unfold pyStrip
  rw [pyLStrip_cons_not l hc]
  unfold pyRStrip
  intro hcontra
  rw [List.reverse_eq_nil_iff, List.dropWhile_eq_nil_iff] at hcontra
  have := hcontra c (by simp)
  simp [hc] at this

theorem lstripSet_cons_not {cs : List Char} {c : Char} (l : Str)
    (h : cs.contains c = false) : lstripSet cs (c :: l) = c :: l := by
  unfold lstripSet
  rw [List.dropWhile_cons_of_neg (by simpa using h)]

theorem lstripSet_cons_mem {cs : List Char} {c : Char} (l : Str)
    (h : cs.contains c = true) : lstripSet cs (c :: l) = lstripSet cs l := by
  unfold lstripSet
  rw [List.dropWhile_cons_of_pos (by simpa using h)]

theorem rstripSet_append_single {cs : List Char} {c : Char} (l : Str)
    (h : cs.contains c = true) : rstripSet cs (l ++ [c]) = rstripSet cs l := by
  unfold rstripSet
  rw [List.reverse_append]
  simp only [List.reverse_cons, List.reverse_nil, List.nil_append, List.cons_append,
    List.nil_append]
  rw [List.dropWhile_cons_of_pos (by simpa using h)]

theorem rstripSet_of_getLast {cs : List Char} {c : Char} {l : Str}
    (h : l.getLast? = some c) (hc : cs.contains c = false) : rstripSet cs l = l := by
  unfold rstripSet
  have hrev : l.reverse.head? = some c := by rw [List.head?_reverse]; exact h
  cases hl : l.reverse with
  | nil => simp [hl] at hrev
  | cons d t =>
    rw [hl] at hrev
    simp only [List.head?_cons, Option.some.injEq] at hrev
    subst hrev
    rw [List.dropWhile_cons_of_neg (by simpa using hc)]
    rw [← hl, List.reverse_reverse]

theorem splitNl_ne_nil (l : Str) : splitNl l ≠ [] := by
  cases l with
  | nil => simp [splitNl]
  | cons c r =>
    unfold splitNl
    split
    · simp
    · cases h : splitNl r with
      | nil => simp
      | cons s ss => simp

theorem splitNl_append_nl (a b : Str) : splitNl (a ++ '\n' :: b) = splitNl a ++ splitNl b := by
  induction a with
  | nil => simp [splitNl]
  | cons c a' ih =>
    by_cases hc : c = '\n'
    · subst hc
      simp only [List.cons_append]
      simp [splitNl, ih]
    · simp only [List.cons_append]
      simp only [splitNl, if_neg hc]
      rw [ih]
      cases ha : splitNl a' with
      | nil => exact absurd ha (splitNl_ne_nil a')
      | cons s ss => simp [ha]

theorem splitNl_no_nl {a : Str} (h : '\n' ∉ a) : splitNl a = [a] := by
  induction a with
  | nil => rfl
  | cons c a' ih =>
    have hc : c ≠ '\n' := fun hh => h (by simp [hh])
    have ha' : '\n' ∉ a' := fun hh => h (by simp [hh])
    unfold splitNl
    rw [if_neg hc, ih ha']

theorem splitNN_ne_nil (l acc : Str) : splitNN l acc ≠ [] := by
  induction l, acc using splitNN.induct with
  | case1 acc => simp [splitNN]
  | case2 c acc => simp [splitNN]
  | case3 c d r acc h ih =>
    simp only [splitNN, if_pos h]
    simp
  | case4 c d r acc h ih =>
    simp only [splitNN, if_neg h]
    exact ih

theorem mem_splitNN (l acc : Str) :
    ∀ s ∈ splitNN l acc, ∀ x ∈ s, x ∈ l ∨ x ∈ acc := by
  induction l, acc using splitNN.induct with
  | case1 acc =>
    intro s hs x hx
    simp only [splitNN, List.mem_singleton] at hs
    subst hs
    right
    simpa using hx
  | case2 c acc =>
    intro s hs x hx
    simp only [splitNN, List.mem_singleton] at hs
    subst hs
    simp only [List.reverse_cons, List.mem_append, List.mem_reverse, List.mem_singleton] at hx
    rcases hx with h | h
    · right; exact h
    · left; simp [h]
  | case3 c d r acc h ih =>
    intro s hs x hx
    simp only [splitNN, if_pos h, List.mem_cons] at hs
    rcases hs with hs | hs
    · subst hs
      right
      simpa using hx
    · rcases ih s hs x hx with hr | hemp
      · left; simp [hr]
      · simp at hemp
  | case4 c d r acc h ih =>
    intro s hs x hx
    simp only [splitNN, if_neg h] at hs
    rcases ih s hs x hx with hr | hacc
    · left
      rcases List.mem_cons.mp hr with h1 | h1
      · simp [h1]
      · simp [h1]
    · rcases List.mem_cons.mp hacc with h1 | h1
      · left; simp [h1]
      · right; exact h1

theorem splitNN_append_noNl {a : Str} (rest acc : Str) (h : '\n' ∉ a) :
    splitNN (a ++ rest) acc = splitNN rest (a.reverse ++ acc) := by
  induction a generalizing acc with
  | nil => simp
  | cons c a' ih =>
    have hc : c ≠ '\n' := fun hh => h (by simp [hh])
    have ha' : '\n' ∉ a' := fun hh => h (by simp [hh])
    simp only [List.cons_append]
    cases hrest : a' ++ rest with
    | nil =>
      have : a' = [] ∧ rest = [] := by
        constructor
        · cases a' <;> simp_all
        · cases a' <;> simp_all
      obtain ⟨h1, h2⟩ := this
      subst h1; subst h2
      simp [splitNN]
    | cons d t =>
      rw [show splitNN (c :: d :: t) acc = splitNN (d :: t) (c :: acc) from by
        simp only [splitNN]
        rw [if_neg (by simp [hc])]]
      rw [← hrest, ih (c :: acc) ha']
      simp

theorem splitNN_noDoubleNl {l : Str} (acc : Str) (h : noDoubleNl l = true) :
    splitNN l acc = [acc.reverse ++ l] := by
  induction l generalizing acc with
  | nil => simp [splitNN]
  | cons c l' ih =>
    cases l' with
    | nil => simp [splitNN]
    | cons d t =>
      have hnd : ¬(c = '\n' ∧ d = '\n') := by
        intro ⟨h1, h2⟩
        simp only [noDoubleNl, h1, h2] at h
        simp at h
      have ht : noDoubleNl (d :: t) = true := by
        simp only [noDoubleNl, Bool.and_eq_true] at h
        exact h.2
      simp only [splitNN, if_neg hnd]
      rw [ih (c :: acc) ht]
      simp

theorem splitNN_headChunk (l : Str) : ∀ acc, ∃ ss, splitNN l acc = (acc.reverse ++ headChunk l) :: ss := by
  induction l with
  | nil => intro acc; exact ⟨[], by simp [splitNN, headChunk]⟩
  | cons c l' ih =>
    intro acc
    cases l' with
    | nil => exact ⟨[], by simp [splitNN, headChunk]⟩
    | cons d t =>
      by_cases hnd : c = '\n' ∧ d = '\n'
      · refine ⟨splitNN t [], ?_⟩
        simp only [splitNN, headChunk, if_pos hnd]
        simp
      · obtain ⟨ss, hss⟩ := ih (c :: acc)
        refine ⟨ss, ?_⟩
        simp only [splitNN, headChunk, if_neg hnd]
        rw [hss]
        simp

theorem splitNN_last {y : Str} (x acc : Str) (hy : noDoubleNl y = true)
    (hh : y.head? ≠ some '\n') :
    (splitNN (x ++ '\n' :: '\n' :: y) acc).getLast? = some y ∨
    (splitNN (x ++ '\n' :: '\n' :: y) acc).getLast? = some ('\n' :: y) := by
  have main : ∀ (x dummy : Str) (acc : Str),
      (splitNN (x ++ '\n' :: '\n' :: y) acc).getLast? = some y ∨
      (splitNN (x ++ '\n' :: '\n' :: y) acc).getLast? = some ('\n' :: y) := by
    intro x dummy
    induction x, dummy using splitNN.induct with
    | case1 _ =>
      intro acc
      left
      simp only [List.nil_append]
      rw [show splitNN ('\n' :: '\n' :: y) acc = acc.reverse :: splitNN y [] from by
        simp [splitNN]]
      rw [splitNN_noDoubleNl [] hy]
      simp
    | case2 c _ =>
      intro acc
      by_cases hc : c = '\n'
      · subst hc
        simp only [List.cons_append, List.nil_append]
        rw [show splitNN ('\n' :: '\n' :: '\n' :: y) acc =
          acc.reverse :: splitNN ('\n' :: y) [] from by simp [splitNN]]
        right
        have hny : noDoubleNl ('\n' :: y) = true := by
          cases y with
          | nil => rfl
          | cons e t =>
            have he : e ≠ '\n' := by
              intro hh2
              exact hh (by simp [hh2])
            simp only [noDoubleNl, Bool.and_eq_true]
            refine ⟨by simp [he], hy⟩
        rw [splitNN_noDoubleNl [] hny]
        simp
      · simp only [List.cons_append, List.nil_append]
        rw [show splitNN (c :: '\n' :: '\n' :: y) acc =
          splitNN ('\n' :: '\n' :: y) (c :: acc) from by simp [splitNN, hc]]
        rw [show splitNN ('\n' :: '\n' :: y) (c :: acc) =
          (c :: acc).reverse :: splitNN y [] from by simp [splitNN]]
        left
        rw [splitNN_noDoubleNl [] hy]
        simp
    | case3 c d r _ h ih =>
      intro acc
      obtain ⟨hc, hd⟩ := h
      subst hc; subst hd
      simp only [List.cons_append]
      rw [show splitNN ('\n' :: '\n' :: (r ++ '\n' :: '\n' :: y)) acc =
        acc.reverse :: splitNN (r ++ '\n' :: '\n' :: y) [] from by simp [splitNN]]
      rcases ih [] with h1 | h1
      · left
        rw [getLast?_cons_ne_nil _ (splitNN_ne_nil _ _)]
        exact h1
      · right
        rw [getLast?_cons_ne_nil _ (splitNN_ne_nil _ _)]
        exact h1
    | case4 c d r _ h ih =>
      intro acc
      simp only [List.cons_append]
      rw [show splitNN (c :: d :: (r ++ '\n' :: '\n' :: y)) acc =
        splitNN (d :: (r ++ '\n' :: '\n' :: y)) (c :: acc) from by
          simp only [splitNN]
          rw [if_neg h]]
      exact ih (c :: acc)
  exact main x [] acc

/-! # Claim C7: totality of the Converter

`_parse_description` is NOT total: a line such as `"².x"` passes the
ordered-list guard (`'²'.isdigit()` is true) and then `int('²')` raises
`ValueError`.  The lemmas below delimit the failure: the only `none` source
is `int1` on a fresh ordered list, so on input whose characters never put a
non-decimal digit in front of the guard — in particular on ASCII input —
the Converter succeeds with a non-empty block list. -/

theorem pyIsDigit_ascii {c : Char} (h : c.toNat ≤ 127) (hd : pyIsDigit c = true) :
    c.isDigit = true := by
  unfold pyIsDigit at hd
  simp only [Bool.or_eq_true, beq_iff_eq, Bool.and_eq_true, decide_eq_true_eq] at hd
  rcases hd with (((((h1 | h2) | h3) | h4) | h5) | h6) | h7
  · exact h1
  · subst h2; exact absurd h (by decide)
  · subst h3; exact absurd h (by decide)
  · subst h4; exact absurd h (by decide)
  · subst h5; exact absurd h (by decide)
  · omega
  · omega

theorem int1_some_of_isDigit {c : Char} (h : c.isDigit = true) :
    int1 c = some (c.toNat - 48) := by
  unfold int1
  rw [if_pos h]

theorem mem_pyStrip {c : Char} {l : Str} (h : c ∈ pyStrip l) : c ∈ l := by
  unfold pyStrip pyRStrip pyLStrip at h
  rw [List.mem_reverse] at h
  have h2 := (List.dropWhile_sublist (l := (l.dropWhile pyIsSpace).reverse)
    (p := pyIsSpace)).mem h
  rw [List.mem_reverse] at h2
  exact (List.dropWhile_sublist (l := l) (p := pyIsSpace)).mem h2

theorem mem_splitNl {s : Str} : ∀ l ∈ splitNl s, ∀ c ∈ l, c ∈ s := by
  induction s with
  | nil =>
    intro l hl c hc
    simp only [splitNl, List.mem_singleton] at hl
    subst hl
    simp at hc
  | cons a r ih =>
    intro l hl c hc
    by_cases ha : a = '\n'
    · have e : splitNl (a :: r) = [] :: splitNl r := by
        conv_lhs => rw [splitNl]
        rw [if_pos ha]
      rw [e] at hl
      rcases List.mem_cons.mp hl with h | h
      · subst h; simp at hc
      · exact List.mem_cons_of_mem _ (ih l h c hc)
    · obtain ⟨s0, ss0, hr, hsp⟩ : ∃ s0 ss0, splitNl r = s0 :: ss0 ∧
          splitNl (a :: r) = (a :: s0) :: ss0 := by
        cases hr : splitNl r with
        | nil => exact absurd hr (splitNl_ne_nil r)
        | cons s0 ss0 =>
          refine ⟨s0, ss0, rfl, ?_⟩
          conv_lhs => rw [splitNl]
          rw [if_neg ha, hr]
      rw [hsp] at hl
      rcases List.mem_cons.mp hl with h | h
      · subst h
        rcases List.mem_cons.mp hc with h | h
        · simp [h]
        · exact List.mem_cons_of_mem _ (ih s0 (by rw [hr]; simp) c h)
      · exact List.mem_cons_of_mem _ (ih l (by rw [hr]; simp [h]) c hc)

theorem pushOrdered_some (itm : Item) (o : Nat) (blocks : List Block) :
    ∃ bs, pushOrdered itm (some o) blocks = some bs := by
  unfold pushOrdered
  split
  · exact ⟨_, rfl⟩
  · exact ⟨_, rfl⟩

theorem processLine_isSome (raw : Str) (st : PState)
    (h : ∀ c ∈ raw, pyIsDigit c = true → c.isDigit = true) :
    ∃ st', processLine raw st = some st' := by
  simp only [processLine]
  split
  · exact ⟨_, rfl⟩
  split
  · exact ⟨_, rfl⟩
  split
  · exact ⟨_, rfl⟩
  split
  · rename_i hne hc1 hc2 hc3
    simp only [Bool.and_eq_true] at hc3
    obtain ⟨⟨hl2, hdig⟩, hdot⟩ := hc3
    cases hl : pyStrip raw with
    | nil => exact absurd hl hne
    | cons d t =>
      rw [hl] at hdig
      simp only [List.headD_cons] at hdig
      have hdd := h d (mem_pyStrip (by rw [hl]; simp)) hdig
      simp only [List.headD_cons]
      rw [int1_some_of_isDigit hdd]
      obtain ⟨bs, hbs⟩ := pushOrdered_some (mkItem (orderedText (d :: t)))
        (d.toNat - 48) (flushPara st).blocks
      rw [hbs]
      exact ⟨_, rfl⟩
  split
  · exact ⟨_, rfl⟩
  split
  · exact ⟨_, rfl⟩
  · exact ⟨_, rfl⟩

theorem processLines_cons_some {l : Str} {st st' : PState} (ls : List Str)
    (h : processLine l st = some st') :
    processLines (l :: ls) st = processLines ls st' := by
  show (match processLine l st with
    | some st' => processLines ls st'
    | none => none) = _
  rw [h]

theorem processLines_isSome (ls : List Str) :
    ∀ (st : PState), (∀ l ∈ ls, ∀ c ∈ l, pyIsDigit c = true → c.isDigit = true) →
    ∃ st', processLines ls st = some st' := by
  induction ls with
  | nil => exact fun st _ => ⟨st, rfl⟩
  | cons l ls' ih =>
    intro st h
    obtain ⟨st1, hst1⟩ := processLine_isSome l st (h l (by simp))
    rw [processLines_cons_some _ hst1]
    exact ih st1 (fun l' hl' => h l' (by simp [hl']))

theorem processSection_isSome (sec : Str) (blocks : List Block)
    (h : ∀ c ∈ sec, pyIsDigit c = true → c.isDigit = true) :
    ∃ bs', processSection sec blocks = some bs' := by
  unfold processSection
  by_cases hb : pyStrip sec = []
  · rw [if_pos hb]
    exact ⟨_, rfl⟩
  · rw [if_neg hb]
    obtain ⟨st', hst'⟩ := processLines_isSome (splitNl sec) ⟨blocks, []⟩
      (fun l hl c hc => h c (mem_splitNl l hl c hc))
    rw [hst']
    exact ⟨_, rfl⟩

theorem processSections_cons_some {s : Str} {bs bs' : List Block} (ss : List Str)
    (h : processSection s bs = some bs') :
    processSections (s :: ss) bs = processSections ss bs' := by
  show (match processSection s bs with
    | some bs' => processSections ss bs'
    | none => none) = _
  rw [h]

theorem processSections_isSome (ss : List Str) :
    ∀ (bs : List Block), (∀ s ∈ ss, ∀ c ∈ s, pyIsDigit c = true → c.isDigit = true) →
    ∃ bs', processSections ss bs = some bs' := by
  induction ss with
  | nil => exact fun bs _ => ⟨bs, rfl⟩
  | cons s ss' ih =>
    intro bs h
    obtain ⟨bs1, hbs1⟩ := processSection_isSome s bs (h s (by simp))
    rw [processSections_cons_some _ hbs1]
    exact ih bs1 (fun s' hs' => h s' (by simp [hs']))

/-- C7 (amended): `_parse_description` is total and returns a non-empty block
list on every ASCII input (every character below `0x80`), where the
ordered-list guard `isdigit()` accepts exactly the decimal digits that
`int()` converts; on general Unicode input it can raise — a line whose first
character passes `isdigit()` without being a decimal digit (e.g. `"².x"`)
reaches `int(line[0])`, which raises an uncaught `ValueError`. -/
theorem parse_description_ascii_total (d : Str) (hA : ∀ c ∈ d, c.toNat ≤ 127) :
    ∃ bs, parseDescription d = some bs ∧ bs ≠ [] := by
  by_cases h0 : d = []
  · subst h0
    exact ⟨_, rfl, by simp⟩
  unfold parseDescription
  rw [if_neg h0]
  obtain ⟨bs, hbs⟩ := processSections_isSome (splitNN d []) []
    (by
      intro s hs c hc hd
      rcases mem_splitNN d [] s hs c hc with h | h
      · exact pyIsDigit_ascii (hA c h) hd
      · simp at h)
  rw [hbs]
  refine ⟨_, rfl, ?_⟩
  by_cases hb : bs = []
  · rw [if_pos hb]
    simp
  · rw [if_neg hb]
    exact hb

/-- C7 counterexample: on `"².x"` the single line passes the ordered-list
guard (`'²'.isdigit()` is true, `line[1] == '.'`), a fresh ordered list is
created, and `int('²')` raises `ValueError`: the Converter produces nothing
(`none`), refuting totality over arbitrary input. -/
theorem parse_description_superscript_raises :
    parseDescription "².x".data = none := rfl

/-- Witness for `parse_description_ascii_total` at a concrete ASCII input
containing an ordered-list line. -/
theorem parse_description_ascii_total_witness :
    ∃ bs, parseDescription "1. a\nplain".data = some bs ∧ bs ≠ [] :=
  parse_description_ascii_total "1. a\nplain".data (by decide)

/-! # Claim C1: empty and whitespace-only input -/

theorem processSections_skip {ss : List Str} (bs : List Block)
    (h : ∀ sec ∈ ss, pyStrip sec = []) :
    processSections ss bs = some bs := by
  induction ss generalizing bs with
  | nil => rfl
  | cons s ss' ih =>
    rw [processSections_cons_some _ (show processSection s bs = some bs from by
      unfold processSection
      rw [if_pos (h s (by simp))])]
    exact ih bs (fun sec hs => h sec (by simp [hs]))

/-- C1 (amended): the empty string yields the single placeholder paragraph,
but a non-empty whitespace-only string yields a single paragraph whose text
run is the original input itself, not the placeholder (every section is
blank, so the final fallback wraps the raw description). -/
theorem parse_description_blank_input :
    parseDescription [] = some [.paragraph [.text noDescription []]] ∧
    (∀ d : Str, d ≠ [] → (∀ c ∈ d, pyIsSpace c = true) →
      parseDescription d = some [.paragraph [.text d []]]) := by
  constructor
  · rfl
  · intro d hne hws
    unfold parseDescription
    rw [if_neg hne]
    have hsecs : ∀ sec ∈ splitNN d [], pyStrip sec = [] := by
      intro sec hs
      apply pyStrip_all_ws
      intro c hc
      rcases mem_splitNN d [] sec hs c hc with h | h
      · exact hws c h
      · simp at h
    rw [processSections_skip [] hsecs]
    simp

/-- C1 counterexample: on the whitespace-only input `"   "` the Converter
returns a paragraph carrying the original three spaces, not the placeholder
`"No description provided"` the claim requires. -/
theorem parse_description_whitespace_not_placeholder :
    parseDescription "   ".data = some [.paragraph [.text "   ".data []]] ∧
    parseDescription "   ".data ≠ some [.paragraph [.text noDescription []]] := by
  constructor
  · rfl
  · decide

/-- Witness for `parse_description_blank_input` at the concrete whitespace
input `"   "`. -/
theorem parse_description_blank_input_witness :
    parseDescription "   ".data = some [.paragraph [.text "   ".data []]] :=
  parse_description_blank_input.2 "   ".data (by decide) (by decide)

/-! # Claim C2: the balanced-object scan -/

theorem scan_step_other {ch : Char} (rest : Str) (esc : Bool) (depth : Nat) (seg : Option Str)
    (h1 : ch ≠ '"') (h2 : ch ≠ '{') (h3 : ch ≠ '}') :
    extractScan (ch :: rest) false esc depth seg =
      extractScan rest false esc depth (seg.map (· ++ [ch])) := by
  simp [extractScan, h1, h2, h3]

theorem scan_step_openQuote (rest : Str) (esc : Bool) (depth : Nat) (seg : Option Str) :
    extractScan ('"' :: rest) false esc depth seg =
      extractScan rest true false depth (seg.map (· ++ ['"'])) := by
  simp [extractScan]

theorem scan_step_inStr {ch : Char} (rest : Str) (depth : Nat) (seg : Option Str)
    (h1 : ch ≠ '\\') (h2 : ch ≠ '"') :
    extractScan (ch :: rest) true false depth seg =
      extractScan rest true false depth (seg.map (· ++ [ch])) := by
  simp [extractScan, h1, h2]

theorem scan_step_escStart (rest : Str) (depth : Nat) (seg : Option Str) :
    extractScan ('\\' :: rest) true false depth seg =
      extractScan rest true true depth (seg.map (· ++ ['\\'])) := by
  simp [extractScan]

theorem scan_step_escChar (ch : Char) (rest : Str) (depth : Nat) (seg : Option Str) :
    extractScan (ch :: rest) true true depth seg =
      extractScan rest true false depth (seg.map (· ++ [ch])) := by
  simp [extractScan]

theorem scan_step_closeQuote (rest : Str) (depth : Nat) (seg : Option Str) :
    extractScan ('"' :: rest) true false depth seg =
      extractScan rest false false depth (seg.map (· ++ ['"'])) := by
  simp [extractScan]

theorem scan_step_openBrace_pos (rest : Str) (depth : Nat) (seg : Option Str) (h : 0 < depth) :
    extractScan ('{' :: rest) false false depth seg =
      extractScan rest false false (depth + 1) (seg.map (· ++ ['{'])) := by
  have h0 : depth ≠ 0 := by omega
  simp [extractScan, h0]

theorem scan_step_closeBrace_deep (rest : Str) (depth : Nat) (seg : Option Str) (h : 1 < depth) :
    extractScan ('}' :: rest) false false depth seg =
      extractScan rest false false (depth - 1) (seg.map (· ++ ['}'])) := by
  have h0 : depth ≠ 0 := by omega
  have h1 : depth ≠ 1 := by omega
  simp [extractScan, h0, h1]

theorem scan_str {sc : Str} (hsc : StrContent sc) :
    ∀ (rest : Str) (depth : Nat) (seg : Option Str),
    extractScan (sc ++ '"' :: rest) true false depth seg =
      extractScan rest false false depth (seg.map (· ++ (sc ++ ['"']))) := by
  induction hsc with
  | nil =>
    intro rest depth seg
    simp only [List.nil_append]
    rw [scan_step_closeQuote]
  | esc c cs l hcs hl ih =>
    intro rest depth seg
    subst hl
    simp only [List.cons_append]
    rw [scan_step_escStart, scan_step_escChar, ih rest depth]
    cases seg <;> simp
  | plain c cs l hq hb hcs hl ih =>
    intro rest depth seg
    subst hl
    simp only [List.cons_append]
    rw [scan_step_inStr _ _ _ hb hq, ih rest depth]
    cases seg <;> simp

theorem scan_body {body : Str} (hb : ObjBody body) :
    ∀ (rest : Str) (depth : Nat) (seg : Option Str), 0 < depth →
    extractScan (body ++ rest) false false depth seg =
      extractScan rest false false depth (seg.map (· ++ body)) := by
  induction hb with
  | nil =>
    intro rest depth seg _
    cases seg <;> simp
  | str sc rest0 l hsc hrest0 hl ihs =>
    intro rest depth seg hd
    subst hl
    simp only [List.cons_append, List.append_assoc, List.cons_append]
    rw [scan_step_openQuote, scan_str hsc (rest0 ++ rest) depth, ihs rest depth _ hd]
    cases seg <;> simp
  | nest inner rest0 l hinner hrest0 hl ihi ihr =>
    intro rest depth seg hd
    subst hl
    simp only [List.cons_append, List.append_assoc, List.cons_append]
    rw [scan_step_openBrace_pos _ _ _ hd]
    rw [ihi ('}' :: (rest0 ++ rest)) (depth + 1) _ (by omega)]
    rw [scan_step_closeBrace_deep _ _ _ (by omega)]
    simp only [Nat.add_sub_cancel]
    rw [ihr rest depth _ hd]
    cases seg <;> simp
  | other c rest0 l hq hob hcb hrest0 hl ihr =>
    intro rest depth seg hd
    subst hl
    simp only [List.cons_append]
    rw [scan_step_other _ _ _ _ hq hob hcb, ihr rest depth _ hd]
    cases seg <;> simp

theorem scan_prose {p1 : Str} (h : ∀ c ∈ p1, c ≠ '"' ∧ c ≠ '{' ∧ c ≠ '}') (rest : Str) :
    extractScan (p1 ++ rest) false false 0 none = extractScan rest false false 0 none := by
  induction p1 with
  | nil => rfl
  | cons c p' ih =>
    obtain ⟨h1, h2, h3⟩ := h c (by simp)
    simp only [List.cons_append]
    rw [scan_step_other _ _ _ _ h1 h2 h3]
    exact ih (fun x hx => h x (by simp [hx]))

/-- C2: on any text made of non-brace non-quote prose, followed by a
balanced JSON object (whose string literals may contain unescaped closing
braces), followed by anything, `extract_braced_json` returns exactly the
slice from the first top-level opening brace through its matching closing
brace — it is not cut short at a brace inside a string literal. -/
theorem extract_braced_json_correct (p1 body p2 : Str)
    (hp : ∀ c ∈ p1, c ≠ '"' ∧ c ≠ '{' ∧ c ≠ '}') (hb : ObjBody body) :
    extractBracedJson (p1 ++ '{' :: (body ++ '}' :: p2)) = some ('{' :: body ++ ['}']) := by
  unfold extractBracedJson
  rw [scan_prose hp ('{' :: (body ++ '}' :: p2))]
  rw [show extractScan ('{' :: (body ++ '}' :: p2)) false false 0 none =
    extractScan (body ++ '}' :: p2) false false 1 (some ['{']) from by
      simp [extractScan]]
  rw [scan_body hb ('}' :: p2) 1 (some ['{']) (by omega)]
  simp only [Option.map_some']
  simp [extractScan]

/-- Witness for `extract_braced_json_correct`: an object whose string value
contains an unescaped closing brace, surrounded by prose, extracted exactly. -/
theorem extract_braced_json_correct_witness :
    extractBracedJson ("ok: ".data ++ '{' :: ("\"a\": \"x\x7dy\"".data ++ '}' :: " tail".data)) =
      some ('{' :: "\"a\": \"x\x7dy\"".data ++ ['}']) := by
  apply extract_braced_json_correct
  · decide
  · have h1 : StrContent "a".data :=
      StrContent.plain 'a' [] "a".data (by decide) (by decide) StrContent.nil (by decide)
    have hy : StrContent "y".data :=
      StrContent.plain 'y' [] "y".data (by decide) (by decide) StrContent.nil (by decide)
    have hxy2 : StrContent "\x7dy".data :=
      StrContent.plain '}' "y".data "\x7dy".data (by decide) (by decide) hy (by decide)
    have hxy : StrContent "x\x7dy".data :=
      StrContent.plain 'x' "\x7dy".data "x\x7dy".data (by decide) (by decide) hxy2 (by decide)
    have h2 : ObjBody "\"x\x7dy\"".data :=
      ObjBody.str "x\x7dy".data [] "\"x\x7dy\"".data hxy ObjBody.nil (by decide)
    have h3 : ObjBody " \"x\x7dy\"".data :=
      ObjBody.other ' ' "\"x\x7dy\"".data " \"x\x7dy\"".data (by decide) (by decide) (by decide) h2
        (by decide)
    have h4 : ObjBody ": \"x\x7dy\"".data :=
      ObjBody.other ':' " \"x\x7dy\"".data ": \"x\x7dy\"".data (by decide) (by decide) (by decide) h3
        (by decide)
    exact ObjBody.str "a".data ": \"x\x7dy\"".data "\"a\": \"x\x7dy\"".data h1 h4 (by decide)

/-! # Claim C9: unterminated opening fence -/

theorem lastIdxWhere_none {p : Str → Bool} {ls : List Str}
    (h : ∀ l ∈ ls, p l = false) : lastIdxWhere p ls = none := by
  induction ls with
  | nil => rfl
  | cons l ls' ih =>
    unfold lastIdxWhere
    rw [ih (fun x hx => h x (by simp [hx]))]
    rw [h l (by simp)]
    rfl

theorem pyRStrip_append (x u : Str) :
    pyRStrip (x ++ u) = if pyRStrip u = [] then pyRStrip x else x ++ pyRStrip u := by
  unfold pyRStrip
  rw [List.reverse_append, List.dropWhile_append]
  split
  · rename_i hcase
    rw [if_pos]
    simp only [List.isEmpty_iff] at hcase
    rw [List.reverse_eq_nil_iff.mpr hcase]
  · rename_i hcase
    rw [if_neg]
    · simp
    · simp only [List.isEmpty_iff] at hcase
      intro hcontra
      exact hcase (by rw [← List.reverse_reverse (List.dropWhile _ _), hcontra]; rfl)

theorem isFenceLine_of_prefix {l : Str} (h : ['`', '`', '`'].isPrefixOf l) :
    isFenceLine l = true := by
  rw [List.isPrefixOf_iff_prefix] at h
  obtain ⟨u, hu⟩ := h
  subst hu
  unfold isFenceLine
  rw [List.isPrefixOf_iff_prefix]
  unfold pyStrip
  rw [show ((['`', '`', '`'] : Str) ++ u : Str) = '`' :: ('`' :: ('`' :: u)) from rfl]
  rw [pyLStrip_cons_not _ (by decide)]
  rw [show ('`' :: ('`' :: ('`' :: u)) : Str) = (['`', '`', '`'] : Str) ++ u from rfl]
  rw [pyRStrip_append]
  split
  · exact ⟨[], by decide⟩
  · exact ⟨pyRStrip u, rfl⟩

theorem splitNl_cons_not_nl {c : Char} (r : Str) (hc : c ≠ '\n') :
    ∃ h t2, splitNl (c :: r) = (c :: h) :: t2 ∧ splitNl r = h :: t2 := by
  cases hr : splitNl r with
  | nil => exact absurd hr (splitNl_ne_nil r)
  | cons h t2 =>
    refine ⟨h, t2, ?_, rfl⟩
    unfold splitNl
    rw [if_neg hc, hr]

theorem sanitize_keeps_backtick (l : Str) :
    sanitizeControlChars ('`' :: l) = '`' :: sanitizeControlChars l := by
  unfold sanitizeControlChars
  rw [List.filter_cons_of_pos (by decide)]

theorem jsonLoads_backtick (l : Str) : jsonLoads ('`' :: l) = none := by
  unfold jsonLoads
  have hval : parseVal (('`' :: l).length + 1) ('`' :: l) = none := by
    rw [show ('`' :: l).length + 1 = l.length + 1 + 1 from by simp]
    simp only [parseVal]
    rw [show skipWs ('`' :: l) = '`' :: l from by
      unfold skipWs
      rw [List.dropWhile_cons_of_neg (by decide)]]
    simp
  rw [hval]

/-- C9: when the stripped extractor input begins with a triple-backtick
fence line and no later line (after stripping) begins with a triple
backtick, `remove_code_fences` returns the stripped text unchanged (opening
fence included), the direct JSON parse of that text necessarily fails, and
extraction proceeds to the brace-scan stages on the sanitized text. -/
theorem unterminated_fence_passthrough (content : Str)
    (hfence : ['`', '`', '`'].isPrefixOf (pyStrip content))
    (hrest : ∀ l ∈ (splitNl (pyStrip content)).tail, isFenceLine l = false) :
    removeCodeFences content = pyStrip content ∧
    jsonLoads (sanitizeControlChars (pyStrip content)) = none ∧
    extractJson content = extractStages45 (sanitizeControlChars (pyStrip content)) := by
  have hpre := hfence
  rw [List.isPrefixOf_iff_prefix] at hpre
  obtain ⟨t', ht⟩ := hpre
  have hbt : pyStrip content = '`' :: ('`' :: ('`' :: t')) := by rw [← ht]; rfl
  obtain ⟨h3, t3, he3, _⟩ := splitNl_cons_not_nl t' (show ('`' : Char) ≠ '\n' by decide)
  obtain ⟨h2, t2, he2, hs2⟩ :=
    splitNl_cons_not_nl ('`' :: t') (show ('`' : Char) ≠ '\n' by decide)
  obtain ⟨h1, t1, he1, hs1⟩ :=
    splitNl_cons_not_nl ('`' :: ('`' :: t')) (show ('`' : Char) ≠ '\n' by decide)
  have hh2 : h2 = '`' :: h3 ∧ t2 = t3 := by
    have := hs2.symm.trans he3
    exact ⟨(List.cons.injEq _ _ _ _).mp this |>.1, (List.cons.injEq _ _ _ _).mp this |>.2⟩
  have hh1 : h1 = '`' :: h2 ∧ t1 = t2 := by
    have := hs1.symm.trans he2
    exact ⟨(List.cons.injEq _ _ _ _).mp this |>.1, (List.cons.injEq _ _ _ _).mp this |>.2⟩
  have hsplit : splitNl (pyStrip content) = ('`' :: h1) :: t1 := by rw [hbt]; exact he1
  have hh0pre : ['`', '`', '`'].isPrefixOf ('`' :: h1) := by
    rw [List.isPrefixOf_iff_prefix, hh1.1, hh2.1]
    exact ⟨h3, rfl⟩
  have htl : ∀ l ∈ t1, isFenceLine l = false := by
    intro l hl
    apply hrest
    rw [hsplit]
    simpa using hl
  have hlast : lastIdxWhere isFenceLine (splitNl (pyStrip content)) = some 0 := by
    rw [hsplit]
    unfold lastIdxWhere
    rw [lastIdxWhere_none htl, isFenceLine_of_prefix hh0pre]
    rfl
  have hrcf : removeCodeFences content = pyStrip content := by
    unfold removeCodeFences
    rw [if_pos hfence]
    simp only [hlast]
    simp
  have hjson : jsonLoads (sanitizeControlChars (pyStrip content)) = none := by
    rw [hbt, sanitize_keeps_backtick, jsonLoads_backtick]
  refine ⟨hrcf, hjson, ?_⟩
  unfold extractJson
  simp only [hrcf, hjson]

/-- Witness for `unterminated_fence_passthrough`: an opening fence with no
closing fence line; the text passes through unchanged, the direct parse
fails, and the brace-scan stages then recover the embedded object. -/
theorem unterminated_fence_passthrough_witness :
    removeCodeFences "```json\n\x7b\"a\": 1\x7d".data = pyStrip "```json\n\x7b\"a\": 1\x7d".data ∧
    jsonLoads (sanitizeControlChars (pyStrip "```json\n\x7b\"a\": 1\x7d".data)) = none ∧
    extractJson "```json\n\x7b\"a\": 1\x7d".data =
      extractStages45 (sanitizeControlChars (pyStrip "```json\n\x7b\"a\": 1\x7d".data)) :=
  unterminated_fence_passthrough "```json\n\x7b\"a\": 1\x7d".data (by decide) (by decide)

/-! # Claim C3: serializer / parser round trip -/

theorem isDigit_toNat {c : Char} (h : c.isDigit = true) : 48 ≤ c.toNat ∧ c.toNat ≤ 57 := by
  simp [Char.isDigit] at h
  exact h

theorem toNat_isDigit {c : Char} (h1 : 48 ≤ c.toNat) (h2 : c.toNat ≤ 57) : c.isDigit = true := by
  simp [Char.isDigit]
  exact ⟨h1, h2⟩

theorem digitChar_isDigit {n : Nat} (h : n < 10) : (Char.ofNat (48 + n)).isDigit = true := by
  interval_cases n <;> decide

theorem digitChar_toNat {n : Nat} (h : n < 10) : (Char.ofNat (48 + n)).toNat = 48 + n := by
  interval_cases n <;> decide

theorem natToChars_ne_nil (n : Nat) : natToChars n ≠ [] := by
  unfold natToChars
  split
  · simp
  · simp

theorem natToChars_all_digit (n : Nat) : ∀ c ∈ natToChars n, c.isDigit = true := by
  induction n using natToChars.induct with
  | case1 n h =>
    intro c hc
    unfold natToChars at hc
    rw [if_pos h] at hc
    simp only [List.mem_singleton] at hc
    subst hc
    exact digitChar_isDigit h
  | case2 n h ih =>
    intro c hc
    unfold natToChars at hc
    rw [if_neg h] at hc
    rcases List.mem_append.mp hc with h1 | h1
    · exact ih c h1
    · simp only [List.mem_singleton] at h1
      subst h1
      exact digitChar_isDigit (Nat.mod_lt _ (by omega))

theorem natToChars_head (n : Nat) : ∃ d t, natToChars n = d :: t ∧ d.isDigit = true := by
  cases hn : natToChars n with
  | nil => exact absurd hn (natToChars_ne_nil n)
  | cons d t =>
    exact ⟨d, t, rfl, natToChars_all_digit n d (by rw [hn]; simp)⟩

theorem natToChars_last (n : Nat) : ∃ d, (natToChars n).getLast? = some d ∧ d.isDigit = true := by
  unfold natToChars
  split
  · rename_i h
    exact ⟨Char.ofNat (48 + n), by simp, digitChar_isDigit h⟩
  · refine ⟨Char.ofNat (48 + n % 10), ?_, digitChar_isDigit (Nat.mod_lt _ (by omega))⟩
    rw [List.getLast?_append]
    simp

theorem parseDigits_stop {rest : Str} (a : Nat)
    (h : rest = [] ∨ ∃ c t, rest = c :: t ∧ c.isDigit = false) :
    parseDigits rest a = (a, rest) := by
  rcases h with h | ⟨c, t, h, hc⟩
  · subst h; rfl
  · subst h
    unfold parseDigits
    rw [if_neg (by simp [hc])]

theorem parseDigits_cons_digit {c : Char} (r : Str) (acc : Nat) (h : c.isDigit = true) :
    parseDigits (c :: r) acc = parseDigits r (acc * 10 + (c.toNat - 48)) := by
  simp only [parseDigits]
  rw [if_pos h]

theorem parseDigits_natToChars (n : Nat) :
    ∀ (rest : Str) (acc : Nat),
    parseDigits (natToChars n ++ rest) acc =
      parseDigits rest (acc * 10 ^ (natToChars n).length + n) := by
  induction n using natToChars.induct with
  | case1 n h =>
    intro rest acc
    rw [show natToChars n = [Char.ofNat (48 + n)] from by unfold natToChars; rw [if_pos h]]
    simp only [List.singleton_append, List.length_singleton]
    rw [parseDigits_cons_digit _ _ (digitChar_isDigit h), digitChar_toNat h, pow_one]
    congr 1
    omega
  | case2 n h ih =>
    intro rest acc
    have hmod : n % 10 < 10 := Nat.mod_lt n (by omega)
    conv_lhs => rw [show natToChars n = natToChars (n / 10) ++ [Char.ofNat (48 + n % 10)] from by
      conv_lhs => rw [natToChars]
      rw [if_neg h]]
    rw [List.append_assoc, ih]
    simp only [List.singleton_append]
    rw [parseDigits_cons_digit _ _ (digitChar_isDigit hmod), digitChar_toNat hmod]
    have hlen : (natToChars n).length = (natToChars (n / 10)).length + 1 := by
      conv_lhs => rw [natToChars]
      rw [if_neg h]
      simp
    rw [hlen]
    congr 1
    rw [pow_succ]
    have expand : (acc * 10 ^ (natToChars (n / 10)).length + n / 10) * 10 + (48 + n % 10 - 48) =
        acc * (10 ^ (natToChars (n / 10)).length * 10) + (10 * (n / 10) + n % 10) := by
      have h48 : 48 + n % 10 - 48 = n % 10 := by omega
      rw [h48]; ring
    rw [expand, Nat.div_add_mod]

theorem finishNum_natToChars (m : Nat) (neg : Bool) (rest : Str) (hb : jsonBoundary rest) :
    finishNum neg (natToChars m ++ rest) =
      some (.num (if neg then -(m : Int) else (m : Int)), rest) := by
  have hstop : parseDigits (natToChars m ++ rest) 0 = (m, rest) := by
    rw [parseDigits_natToChars]
    rw [show 0 * 10 ^ (natToChars m).length + m = m from by omega]
    apply parseDigits_stop
    unfold jsonBoundary at hb
    cases rest with
    | nil => left; rfl
    | cons c t =>
      right
      refine ⟨c, t, rfl, ?_⟩
      rcases hb with h | h | h <;> (subst h; decide)
  obtain ⟨d, t, hdt, hd⟩ := natToChars_head m
  rw [hdt] at hstop ⊢
  simp only [List.cons_append] at hstop ⊢
  unfold finishNum
  simp only [hstop]
  rw [if_pos hd]
  unfold jsonBoundary at hb
  cases rest with
  | nil => rfl
  | cons c t2 =>
    have hce : ¬(c = '.' ∨ c = 'e' ∨ c = 'E') := by
      rcases hb with h | h | h <;> (subst h; decide)
    simp [hce]

theorem hexVal_hexDigitChar {n : Nat} (h : n < 16) : hexVal (hexDigitChar n) = some n := by
  interval_cases n <;> decide

theorem parseStringBody_escape (s : Str) :
    ∀ (rest acc : Str),
    parseStringBody (escapeString s ++ '"' :: rest) acc = some (acc ++ s, rest) := by
  induction s with
  | nil =>
    intro rest acc
    simp only [escapeString, List.map_nil, List.flatten_nil, List.nil_append]
    unfold parseStringBody
    simp
  | cons c s' ih =>
    intro rest acc
    have hesc : escapeString (c :: s') = escapeChar c ++ escapeString s' := by
      simp [escapeString]
    rw [hesc, List.append_assoc]
    by_cases h1 : c = '"'
    · subst h1
      rw [show escapeChar '"' = ['\\', '"'] from rfl]
      simp only [List.cons_append, List.nil_append]
      unfold parseStringBody
      simp [unescape, ih]
    · by_cases h2 : c = '\\'
      · subst h2
        rw [show escapeChar '\\' = ['\\', '\\'] from rfl]
        simp only [List.cons_append, List.nil_append]
        unfold parseStringBody
        simp [unescape, ih]
      · by_cases h3 : c = '\n'
        · subst h3
          rw [show escapeChar '\n' = ['\\', 'n'] from rfl]
          simp only [List.cons_append, List.nil_append]
          unfold parseStringBody
          simp [unescape, ih]
        · by_cases h4 : c = '\t'
          · subst h4
            rw [show escapeChar '\t' = ['\\', 't'] from rfl]
            simp only [List.cons_append, List.nil_append]
            unfold parseStringBody
            simp [unescape, ih]
          · by_cases h5 : c = '\r'
            · subst h5
              rw [show escapeChar '\r' = ['\\', 'r'] from rfl]
              simp only [List.cons_append, List.nil_append]
              unfold parseStringBody
              simp [unescape, ih]
            · by_cases h6 : c.toNat < 32
              · rw [show escapeChar c = ['\\', 'u', '0', '0', hexDigitChar (c.toNat / 16),
                    hexDigitChar (c.toNat % 16)] from by
                  unfold escapeChar
                  rw [if_neg h1, if_neg h2, if_neg h3, if_neg h4, if_neg h5, if_pos h6]]
                simp only [List.cons_append, List.nil_append]
                unfold parseStringBody
                simp only [hexVal_hexDigitChar (show c.toNat / 16 < 16 by omega),
                  hexVal_hexDigitChar (Nat.mod_lt c.toNat (show 0 < 16 by omega)),
                  show hexVal '0' = some 0 from by decide]
                simp only [show ((('\\' : Char) = '"') = False) from by simp, if_false]
                norm_num
                rw [show c.toNat / 16 * 16 + c.toNat % 16 = c.toNat from by omega]
                rw [Char.ofNat_toNat, ih]
                simp
              · rw [show escapeChar c = [c] from by
                  unfold escapeChar
                  rw [if_neg h1, if_neg h2, if_neg h3, if_neg h4, if_neg h5, if_neg h6]]
                simp only [List.cons_append, List.nil_append]
                rw [show parseStringBody (c :: (escapeString s' ++ '"' :: rest)) acc =
                    parseStringBody (escapeString s' ++ '"' :: rest) (acc ++ [c]) from by
                  conv_lhs => unfold parseStringBody
                  rw [if_neg h1, if_neg h2, if_neg (by omega)]]
                rw [ih]
                simp

theorem digit_head_props {c : Char} (h : c.isDigit = true) :
    jsonWs c = false ∧ c ≠ ']' ∧ c ≠ '`' ∧ pyIsSpace c = false := by
  obtain ⟨hb1, hb2⟩ := isDigit_toNat h
  refine ⟨?_, ?_, ?_, ?_⟩
  · simp only [jsonWs, Bool.or_eq_false_iff, beq_eq_false_iff_ne, ne_eq]
    refine ⟨⟨⟨?_, ?_⟩, ?_⟩, ?_⟩ <;> (intro hc; subst hc; revert hb1 hb2; decide)
  · intro hc; subst hc; revert hb1 hb2; decide
  · intro hc; subst hc; revert hb1 hb2; decide
  · simp only [pyIsSpace, Bool.or_eq_false_iff, beq_eq_false_iff_ne, ne_eq]
    refine ⟨⟨⟨⟨⟨?_, ?_⟩, ?_⟩, ?_⟩, ?_⟩, ?_⟩ <;> (intro hc; subst hc; revert hb1 hb2; decide)

theorem hexDigitChar_ge32 {n : Nat} (h : n < 16) : 32 ≤ (hexDigitChar n).toNat := by
  interval_cases n <;> decide

theorem escapeChar_ge32 (c : Char) : ∀ x ∈ escapeChar c, 32 ≤ x.toNat := by
  intro x hx
  unfold escapeChar at hx
  split at hx
  · rcases List.mem_pair.mp hx with h | h <;> (subst h; decide)
  · split at hx
    · rcases List.mem_pair.mp hx with h | h <;> (subst h; decide)
    · split at hx
      · rcases List.mem_pair.mp hx with h | h <;> (subst h; decide)
      · split at hx
        · rcases List.mem_pair.mp hx with h | h <;> (subst h; decide)
        · split at hx
          · rcases List.mem_pair.mp hx with h | h <;> (subst h; decide)
          · split at hx
            · simp only [List.mem_cons, List.not_mem_nil, or_false] at hx
              rcases hx with h | h | h | h | h | h
              · subst h; decide
              · subst h; decide
              · subst h; decide
              · subst h; decide
              · subst h
                exact hexDigitChar_ge32 (show c.toNat / 16 < 16 by omega)
              · subst h
                exact hexDigitChar_ge32 (Nat.mod_lt _ (by omega))
            · simp only [List.mem_singleton] at hx
              subst hx
              rename_i h6
              omega

mutual
theorem serJson_ge32 : ∀ (v : Json) (c : Char), c ∈ serJson v → 32 ≤ c.toNat
  | .null, c, hc => by
    simp only [serJson, List.mem_cons, List.not_mem_nil, or_false] at hc
    rcases hc with h | h | h | h <;> (subst h; decide)
  | .bool true, c, hc => by
    simp only [serJson, List.mem_cons, List.not_mem_nil, or_false] at hc
    rcases hc with h | h | h | h <;> (subst h; decide)
  | .bool false, c, hc => by
    simp only [serJson, List.mem_cons, List.not_mem_nil, or_false] at hc
    rcases hc with h | h | h | h | h <;> (subst h; decide)
  | .num n, c, hc => by
    simp only [serJson] at hc
    unfold intToChars at hc
    split at hc
    · simp only [List.mem_cons] at hc
      rcases hc with h | h
      · subst h; decide
      · have := isDigit_toNat (natToChars_all_digit _ c h)
        omega
    · have := isDigit_toNat (natToChars_all_digit _ c hc)
      omega
  | .str s, c, hc => by
    simp only [serJson, List.mem_cons, List.mem_append, List.mem_singleton, List.not_mem_nil, or_false] at hc
    rcases hc with h | h | h
    · subst h; decide
    · unfold escapeString at h
      simp only [List.mem_flatten, List.mem_map] at h
      obtain ⟨l, ⟨d, _, hdl⟩, hcl⟩ := h
      subst hdl
      exact escapeChar_ge32 d c hcl
    · subst h; decide
  | .arr xs, c, hc => by
    simp only [serJson, List.mem_cons, List.mem_append, List.mem_singleton, List.not_mem_nil, or_false] at hc
    rcases hc with h | h | h
    · subst h; decide
    · exact serElems_ge32 xs c h
    · subst h; decide
  | .obj kvs, c, hc => by
    simp only [serJson, List.mem_cons, List.mem_append, List.mem_singleton, List.not_mem_nil, or_false] at hc
    rcases hc with h | h | h
    · subst h; decide
    · exact serMembers_ge32 kvs c h
    · subst h; decide
theorem serElems_ge32 : ∀ (xs : List Json) (c : Char), c ∈ serElems xs → 32 ≤ c.toNat
  | [], c, hc => by simp [serElems] at hc
  | [x], c, hc => serJson_ge32 x c (by simpa [serElems] using hc)
  | x :: y :: xs, c, hc => by
    simp only [serElems, List.mem_append, List.mem_cons] at hc
    rcases hc with h | h | h
    · exact serJson_ge32 x c h
    · subst h; decide
    · exact serElems_ge32 (y :: xs) c h
theorem serMembers_ge32 : ∀ (kvs : List (Str × Json)) (c : Char), c ∈ serMembers kvs → 32 ≤ c.toNat
  | [], c, hc => by simp [serMembers] at hc
  | [kv], c, hc => by
    simp only [serMembers, List.mem_cons, List.mem_append] at hc
    rcases hc with h | h | h | h | h
    · subst h; decide
    · unfold escapeString at h
      simp only [List.mem_flatten, List.mem_map] at h
      obtain ⟨l, ⟨d, _, hdl⟩, hcl⟩ := h
      subst hdl
      exact escapeChar_ge32 d c hcl
    · subst h; decide
    · subst h; decide
    · exact serJson_ge32 kv.2 c h
  | kv :: kv2 :: kvs, c, hc => by
    simp only [serMembers, List.mem_append, List.mem_cons] at hc
    rcases hc with (h | h | h | h | h) | h | h
    · subst h; decide
    · unfold escapeString at h
      simp only [List.mem_flatten, List.mem_map] at h
      obtain ⟨l, ⟨d, _, hdl⟩, hcl⟩ := h
      subst hdl
      exact escapeChar_ge32 d c hcl
    · subst h; decide
    · subst h; decide
    · exact serJson_ge32 kv.2 c h
    · subst h; decide
    · exact serMembers_ge32 (kv2 :: kvs) c h
end

theorem serJson_head (v : Json) :
    ∃ c t, serJson v = c :: t ∧ jsonWs c = false ∧ c ≠ ']' ∧ c ≠ '`' ∧ pyIsSpace c = false := by
  cases v with
  | null => exact ⟨'n', _, rfl, by decide⟩
  | bool b => cases b with
    | true => exact ⟨'t', _, rfl, by decide⟩
    | false => exact ⟨'f', _, rfl, by decide⟩
  | num n =>
    show ∃ c t, intToChars n = c :: t ∧ _
    unfold intToChars
    split
    · exact ⟨'-', _, rfl, by decide⟩
    · obtain ⟨d, t, hdt, hd⟩ := natToChars_head n.natAbs
      obtain ⟨p1, p2, p3, p4⟩ := digit_head_props hd
      exact ⟨d, t, hdt, p1, p2, p3, p4⟩
  | str s => exact ⟨'"', _, rfl, by decide⟩
  | arr xs => exact ⟨'[', _, rfl, by decide⟩
  | obj kvs => exact ⟨'{', _, rfl, by decide⟩

theorem serJson_last (v : Json) :
    ∃ c, (serJson v).getLast? = some c ∧ pyIsSpace c = false := by
  cases v with
  | null => exact ⟨'l', by decide, by decide⟩
  | bool b => cases b with
    | true => exact ⟨'e', by decide, by decide⟩
    | false => exact ⟨'e', by decide, by decide⟩
  | num n =>
    show ∃ c, (intToChars n).getLast? = some c ∧ _
    unfold intToChars
    obtain ⟨d, hd, hdig⟩ := natToChars_last n.natAbs
    have hws := (digit_head_props hdig).2.2.2
    split
    · refine ⟨d, ?_, hws⟩
      rw [getLast?_cons_ne_nil _ (natToChars_ne_nil _)]
      exact hd
    · exact ⟨d, hd, hws⟩
  | str s =>
    refine ⟨'"', ?_, by decide⟩
    show (('"' :: (escapeString s ++ ['"'])).getLast? = _)
    rw [getLast?_cons_ne_nil _ (by simp), List.getLast?_append]
    simp
  | arr xs =>
    refine ⟨']', ?_, by decide⟩
    show (('[' :: (serElems xs ++ [']'])).getLast? = _)
    rw [getLast?_cons_ne_nil _ (by simp), List.getLast?_append]
    simp
  | obj kvs =>
    refine ⟨'}', ?_, by decide⟩
    show (('{' :: (serMembers kvs ++ ['}'])).getLast? = _)
    rw [getLast?_cons_ne_nil _ (by simp), List.getLast?_append]
    simp

theorem pyStrip_serJson (v : Json) : pyStrip (serJson v) = serJson v := by
  obtain ⟨c, t, hct, _, _, _, hws⟩ := serJson_head v
  obtain ⟨d, hd, hdw⟩ := serJson_last v
  exact pyStrip_eq_self (by rw [hct]; rfl) hws hd hdw

theorem sanitize_serJson (v : Json) : sanitizeControlChars (serJson v) = serJson v := by
  unfold sanitizeControlChars
  rw [List.filter_eq_self.mpr]
  intro c hc
  have := serJson_ge32 v c hc
  simp only [Bool.not_eq_true']
  unfold strippedBySanitize
  simp only [Bool.or_eq_false_iff, Bool.and_eq_false_iff]
  refine ⟨⟨⟨?_, ?_⟩, ?_⟩, ?_⟩
  · simp; omega
  · simp; omega
  · simp; omega
  · right; simp; omega

theorem serJson_noNl (v : Json) : '\n' ∉ serJson v := by
  intro hc
  have := serJson_ge32 v '\n' hc
  revert this
  decide

theorem serJson_not_fence (v : Json) : ['`', '`', '`'].isPrefixOf (serJson v) = false := by
  obtain ⟨c, t, hct, _, _, hbt, _⟩ := serJson_head v
  rw [hct]
  simp only [List.isPrefixOf]
  rw [show ('`' == c) = false from by simp [beq_eq_false_iff_ne]; exact fun h => hbt h.symm]
  rfl

theorem skipWs_cons_not {c : Char} (l : Str) (h : jsonWs c = false) : skipWs (c :: l) = c :: l := by
  unfold skipWs
  rw [List.dropWhile_cons_of_neg (by simp [h])]

theorem digit_ne_of_toNat {c d : Char} (hd : c.isDigit = true)
    (h : d.toNat < 48 ∨ 57 < d.toNat) : ¬ c = d := by
  intro he
  subst he
  obtain ⟨a, b⟩ := isDigit_toNat hd
  omega

theorem parseVal_digit_start (fuel : Nat) {c : Char} (r : Str) (hd : c.isDigit = true) :
    parseVal (fuel + 1) (c :: r) = finishNum false (c :: r) := by
  unfold parseVal
  rw [skipWs_cons_not _ (digit_head_props hd).1]
  simp only []
  rw [if_neg (digit_ne_of_toNat hd (by decide)), if_neg (digit_ne_of_toNat hd (by decide)),
    if_neg (digit_ne_of_toNat hd (by decide)), if_neg (digit_ne_of_toNat hd (by decide)),
    if_neg (digit_ne_of_toNat hd (by decide)), if_neg (digit_ne_of_toNat hd (by decide)),
    if_neg (digit_ne_of_toNat hd (by decide)), if_pos hd]

theorem parseVal_dash_start (fuel : Nat) (r : Str) :
    parseVal (fuel + 1) ('-' :: r) = finishNum true r := by
  unfold parseVal
  rw [skipWs_cons_not _ (by decide)]
  simp

theorem serElems_cons_head {x : Json} {c0 : Char} {t0 : Str} (xs : List Json)
    (h : serJson x = c0 :: t0) : ∃ t1, serElems (x :: xs) = c0 :: t1 := by
  cases xs with
  | nil => exact ⟨t0, by simp [serElems, h]⟩
  | cons y ys => exact ⟨t0 ++ ',' :: serElems (y :: ys), by simp [serElems, h]⟩

theorem serMembers_cons_head (kv : Str × Json) (kvs : List (Str × Json)) :
    ∃ t1, serMembers (kv :: kvs) = '"' :: t1 := by
  cases kvs with
  | nil => exact ⟨_, rfl⟩
  | cons kv2 kvs' => exact ⟨_, rfl⟩

theorem jsize_pos (v : Json) : 1 ≤ jsize v := by
  cases v <;> simp [jsize]

theorem parseVal_quote (fuel : Nat) (r : Str) :
    parseVal (fuel + 1) ('"' :: r) = (parseStringBody r []).map (fun p => (.str p.1, p.2)) := by
  unfold parseVal
  rw [skipWs_cons_not _ (by decide)]
  simp

theorem parseVal_bracket (fuel : Nat) (r : Str) :
    parseVal (fuel + 1) ('[' :: r) =
      (match skipWs r with
       | [] => none
       | d :: r' =>
         if d = ']' then some (.arr [], r')
         else (parseElems fuel (d :: r')).map (fun p => (.arr p.1, p.2))) := by
  unfold parseVal
  rw [skipWs_cons_not _ (by decide)]
  simp

theorem parseVal_brace (fuel : Nat) (r : Str) :
    parseVal (fuel + 1) ('{' :: r) =
      (match skipWs r with
       | [] => none
       | d :: r' =>
         if d = '}' then some (.obj [], r')
         else (parseMembers fuel (d :: r')).map (fun p => (.obj p.1, p.2))) := by
  unfold parseVal
  rw [skipWs_cons_not _ (by decide)]
  simp

mutual
theorem parseVal_ser : ∀ (v : Json) (fuel : Nat) (rest : Str),
    jsize v ≤ fuel → jsonBoundary rest → parseVal fuel (serJson v ++ rest) = some (v, rest)
  | v, 0, rest, hf, _ => absurd hf (by have := jsize_pos v; omega)
  | v, fuel + 1, rest, hf, hb => by
    cases v with
    | null =>
      simp only [serJson, List.cons_append, List.nil_append]
      unfold parseVal
      rw [skipWs_cons_not _ (by decide)]
      simp [expectChars, List.isPrefixOf]
    | bool b =>
      cases b with
      | true =>
        simp only [serJson, List.cons_append, List.nil_append]
        unfold parseVal
        rw [skipWs_cons_not _ (by decide)]
        simp [expectChars, List.isPrefixOf]
      | false =>
        simp only [serJson, List.cons_append, List.nil_append]
        unfold parseVal
        rw [skipWs_cons_not _ (by decide)]
        simp [expectChars, List.isPrefixOf]
    | num n =>
      by_cases hn : n < 0
      · rw [show serJson (.num n) = '-' :: natToChars n.natAbs from by
          simp only [serJson]
          unfold intToChars
          rw [if_pos hn]]
        simp only [List.cons_append]
        rw [parseVal_dash_start, finishNum_natToChars _ _ _ hb]
        rw [show (if (true : Bool) = true then -(n.natAbs : Int) else (n.natAbs : Int)) = n from by
          rw [if_pos rfl]
          omega]
      · rw [show serJson (.num n) = natToChars n.natAbs from by
          simp only [serJson]
          unfold intToChars
          rw [if_neg hn]]
        obtain ⟨d, t, hdt, hd⟩ := natToChars_head n.natAbs
        rw [hdt]
        simp only [List.cons_append]
        rw [parseVal_digit_start _ _ hd]
        rw [show d :: (t ++ rest) = natToChars n.natAbs ++ rest from by rw [hdt]; simp]
        rw [finishNum_natToChars _ _ _ hb]
        rw [show (if (false : Bool) = true then -(n.natAbs : Int) else (n.natAbs : Int)) = n from by
          rw [if_neg (by decide)]
          omega]
    | str s =>
      rw [show serJson (.str s) ++ rest = '"' :: (escapeString s ++ '"' :: rest) from by
        simp only [serJson]
        simp]
      rw [parseVal_quote, parseStringBody_escape]
      simp
    | arr xs =>
      cases xs with
      | nil =>
        rw [show serJson (.arr []) ++ rest = '[' :: (']' :: rest) from by
          simp only [serJson, serElems]
          simp]
        rw [parseVal_bracket]
        rw [skipWs_cons_not _ (by decide)]
        simp
      | cons x xs' =>
        obtain ⟨c0, t0, hc0, hws0, hne0, _, _⟩ := serJson_head x
        obtain ⟨t1, ht1⟩ := serElems_cons_head xs' hc0
        rw [show serJson (.arr (x :: xs')) ++ rest =
            '[' :: (serElems (x :: xs') ++ ']' :: rest) from by
          simp only [serJson]
          simp]
        rw [parseVal_bracket]
        rw [ht1]
        simp only [List.cons_append]
        rw [skipWs_cons_not _ hws0]
        simp only [reduceIte, if_neg hne0]
        rw [show c0 :: (t1 ++ ']' :: rest) = serElems (x :: xs') ++ ']' :: rest from by
          rw [ht1]; simp]
        rw [parseElems_ser (x :: xs') fuel rest (by simp) (by
          simp only [jsize] at hf
          omega)]
        simp
    | obj kvs =>
      cases kvs with
      | nil =>
        rw [show serJson (.obj []) ++ rest = '{' :: ('}' :: rest) from by
          simp only [serJson, serMembers]
          simp]
        rw [parseVal_brace]
        rw [skipWs_cons_not _ (by decide)]
        simp
      | cons kv kvs' =>
        obtain ⟨t1, ht1⟩ := serMembers_cons_head kv kvs'
        rw [show serJson (.obj (kv :: kvs')) ++ rest =
            '{' :: (serMembers (kv :: kvs') ++ '}' :: rest) from by
          simp only [serJson]
          simp]
        rw [parseVal_brace]
        rw [ht1]
        simp only [List.cons_append]
        rw [skipWs_cons_not _ (by decide)]
        simp only [reduceIte]
        rw [show '"' :: (t1 ++ '}' :: rest) = serMembers (kv :: kvs') ++ '}' :: rest from by
          rw [ht1]; simp]
        rw [parseMembers_ser (kv :: kvs') fuel rest (by simp) (by
          simp only [jsize] at hf
          omega)]
        simp
theorem parseElems_ser : ∀ (xs : List Json) (fuel : Nat) (rest : Str),
    xs ≠ [] → jsizeElems xs ≤ fuel →
    parseElems fuel (serElems xs ++ ']' :: rest) = some (xs, rest)
  | [], _, _, hne, _ => absurd rfl hne
  | [x], 0, rest, _, hsz => by simp [jsizeElems] at hsz
  | [x], fuel + 1, rest, _, hsz => by
    unfold parseElems
    rw [show serElems [x] = serJson x from by simp [serElems]]
    rw [parseVal_ser x fuel (']' :: rest) (by
      simp only [jsizeElems, jsizeElems] at hsz
      have := Nat.le_max_left (jsize x) (jsizeElems ([] : List Json))
      omega) (by simp [jsonBoundary])]
    simp only []
    rw [skipWs_cons_not _ (by decide)]
    simp
  | x :: y :: ys, 0, rest, _, hsz => by simp [jsizeElems] at hsz
  | x :: y :: ys, fuel + 1, rest, _, hsz => by
    unfold parseElems
    rw [show serElems (x :: y :: ys) ++ ']' :: rest =
        serJson x ++ (',' :: (serElems (y :: ys) ++ ']' :: rest)) from by
      simp only [serElems]
      simp]
    rw [parseVal_ser x fuel _ (by
      simp only [jsizeElems] at hsz
      have := Nat.le_max_left (jsize x) (jsizeElems (y :: ys))
      omega) (by simp [jsonBoundary])]
    simp only []
    rw [skipWs_cons_not _ (by decide)]
    simp only [reduceIte]
    rw [parseElems_ser (y :: ys) fuel rest (by simp) (by
      have hexp : jsizeElems (x :: y :: ys) = 1 + max (jsize x) (jsizeElems (y :: ys)) := by
        conv_lhs => rw [jsizeElems]
      rw [hexp] at hsz
      omega)]
theorem parseMembers_ser : ∀ (kvs : List (Str × Json)) (fuel : Nat) (rest : Str),
    kvs ≠ [] → jsizeMembers kvs ≤ fuel →
    parseMembers fuel (serMembers kvs ++ '}' :: rest) = some (kvs, rest)
  | [], _, _, hne, _ => absurd rfl hne
  | [kv], 0, rest, _, hsz => by simp [jsizeMembers] at hsz
  | [kv], fuel + 1, rest, _, hsz => by
    unfold parseMembers
    rw [show serMembers [kv] ++ '}' :: rest =
        '"' :: (escapeString kv.1 ++ '"' :: (':' :: (serJson kv.2 ++ '}' :: rest))) from by
      simp only [serMembers]
      simp]
    rw [skipWs_cons_not _ (by decide)]
    simp only [reduceIte]
    rw [parseStringBody_escape]
    simp only [List.nil_append]
    rw [skipWs_cons_not _ (by decide)]
    simp only [reduceIte]
    rw [parseVal_ser kv.2 fuel _ (by
      simp only [jsizeMembers] at hsz
      have := Nat.le_max_left (jsize kv.2) (jsizeMembers ([] : List (Str × Json)))
      omega) (by simp [jsonBoundary])]
    simp only []
    rw [skipWs_cons_not _ (by decide)]
    simp
  | kv :: kv2 :: kvs, 0, rest, _, hsz => by simp [jsizeMembers] at hsz
  | kv :: kv2 :: kvs, fuel + 1, rest, _, hsz => by
    unfold parseMembers
    rw [show serMembers (kv :: kv2 :: kvs) ++ '}' :: rest =
        '"' :: (escapeString kv.1 ++ '"' :: (':' :: (serJson kv.2 ++
          ',' :: (serMembers (kv2 :: kvs) ++ '}' :: rest)))) from by
      simp only [serMembers]
      simp]
    rw [skipWs_cons_not _ (by decide)]
    simp only [reduceIte]
    rw [parseStringBody_escape]
    simp only [List.nil_append]
    rw [skipWs_cons_not _ (by decide)]
    simp only [reduceIte]
    rw [parseVal_ser kv.2 fuel _ (by
      simp only [jsizeMembers] at hsz
      have := Nat.le_max_left (jsize kv.2) (jsizeMembers (kv2 :: kvs))
      omega) (by simp [jsonBoundary])]
    simp only []
    rw [skipWs_cons_not _ (by decide)]
    simp only [reduceIte]
    rw [parseMembers_ser (kv2 :: kvs) fuel rest (by simp) (by
      have hexp : jsizeMembers (kv :: kv2 :: kvs) =
          1 + max (jsize kv.2) (jsizeMembers (kv2 :: kvs)) := by
        conv_lhs => rw [jsizeMembers]
      rw [hexp] at hsz
      omega)]
end

mutual
theorem jsize_le_len : ∀ (v : Json), jsize v ≤ (serJson v).length
  | .null => by simp [jsize, serJson]
  | .bool true => by simp [jsize, serJson]
  | .bool false => by simp [jsize, serJson]
  | .num n => by
    have h := natToChars_ne_nil n.natAbs
    have hlen : 1 ≤ (natToChars n.natAbs).length := by
      cases hx : natToChars n.natAbs with
      | nil => exact absurd hx h
      | cons a b => simp
    simp only [jsize, serJson]
    unfold intToChars
    split
    · simp only [List.length_cons]
      omega
    · omega
  | .str s => by simp [jsize, serJson]
  | .arr xs => by
    have := jsizeElems_le_len xs
    simp only [jsize, serJson]
    simp
    omega
  | .obj kvs => by
    have := jsizeMembers_le_len kvs
    simp only [jsize, serJson]
    simp
    omega
theorem jsizeElems_le_len : ∀ (xs : List Json), jsizeElems xs ≤ (serElems xs).length + 1
  | [] => by simp [jsizeElems]
  | [x] => by
    have := jsize_le_len x
    simp only [jsizeElems, jsizeElems, serElems]
    simp
    omega
  | x :: y :: ys => by
    have h1 := jsize_le_len x
    have h2 := jsizeElems_le_len (y :: ys)
    conv_lhs => rw [jsizeElems]
    rw [show serElems (x :: y :: ys) = serJson x ++ ',' :: serElems (y :: ys) from rfl]
    simp
    omega
theorem jsizeMembers_le_len : ∀ (kvs : List (Str × Json)), jsizeMembers kvs ≤ (serMembers kvs).length + 1
  | [] => by simp [jsizeMembers]
  | [kv] => by
    have := jsize_le_len kv.2
    simp only [jsizeMembers, jsizeMembers, serMembers]
    simp
    omega
  | kv :: kv2 :: kvs => by
    have h1 := jsize_le_len kv.2
    have h2 := jsizeMembers_le_len (kv2 :: kvs)
    conv_lhs => rw [jsizeMembers]
    rw [show serMembers (kv :: kv2 :: kvs) =
        ('"' :: (escapeString kv.1 ++ '"' :: ':' :: serJson kv.2)) ++ ',' :: serMembers (kv2 :: kvs) from rfl]
    simp
    omega
end

theorem jsonLoads_serJson (v : Json) : jsonLoads (serJson v) = some v := by
  unfold jsonLoads
  have h := parseVal_ser v ((serJson v).length + 1) []
    (by have := jsize_le_len v; omega) (by simp [jsonBoundary])
  rw [List.append_nil] at h
  rw [h]
  simp [skipWs]

theorem pyRStrip_self_last {l : Str} (h : pyRStrip l = l) (hne : l ≠ []) :
    ∃ c, l.getLast? = some c ∧ pyIsSpace c = false := by
  cases hl : l.reverse with
  | nil =>
    rw [List.reverse_eq_nil_iff] at hl
    exact absurd hl hne
  | cons d t =>
    by_cases hd : pyIsSpace d = true
    · exfalso
      have hlen : (pyRStrip l).length < l.length := by
        unfold pyRStrip
        rw [hl, List.dropWhile_cons_of_pos (by simp [hd])]
        have h1 : (List.dropWhile pyIsSpace t).length ≤ t.length :=
          (List.dropWhile_sublist _).length_le
        have h2 : l.length = t.length + 1 := by
          have := congrArg List.length hl
          simp only [List.length_reverse, List.length_cons] at this
          omega
        simp only [List.length_reverse]
        omega
      rw [h] at hlen
      omega
    · refine ⟨d, ?_, by simpa using hd⟩
      rw [← List.head?_reverse, hl]
      rfl

/-- C3 (amended): wrapping the serialization of any JSON value in a
triple-backtick fence with prose AFTER the closing fence only (the original
claim also allowed prose BEFORE the opening fence, which the counterexample
refutes), where no prose line looks like a fence line and the prose carries
no trailing whitespace, extraction of the wrapped text and extraction of
the fenced interior alone both succeed with the same value. -/
theorem extract_fenced_agrees (v : Json) (prose : Str)
    (hpl : ∀ l ∈ splitNl prose, isFenceLine l = false)
    (hpr : pyRStrip prose = prose) :
    extractJson (fenceWrap (serJson v) prose) = some v ∧
    extractJson (serJson v) = some v := by
  have hA_last : (("```json\n".data ++ serJson v ++ "\n```".data)).getLast? = some '`' := by
    rw [List.getLast?_append]
    rfl
  -- the stripped wrapped text
  have hstrip : ∃ tl, pyStrip (fenceWrap (serJson v) prose) =
      ("```json\n".data ++ serJson v ++ "\n```".data) ++ tl ∧
      (tl = [] ∨ tl = '\n' :: prose) := by
    have hwrap : fenceWrap (serJson v) prose =
        ("```json\n".data ++ serJson v ++ "\n```".data) ++ ('\n' :: prose) := by
      unfold fenceWrap
      simp
    by_cases hp : prose = []
    · refine ⟨[], ?_, Or.inl rfl⟩
      rw [hwrap, hp]
      unfold pyStrip
      rw [show (("```json\n".data ++ serJson v ++ "\n```".data)) ++ ['\n'] =
          '`' :: (("``json\n".data ++ serJson v ++ "\n```".data) ++ ['\n']) from rfl]
      rw [pyLStrip_cons_not _ (by decide)]
      rw [show ('`' : Char) :: (("``json\n".data ++ serJson v ++ "\n```".data) ++ ['\n']) =
          (("```json\n".data ++ serJson v ++ "\n```".data)) ++ ['\n'] from rfl]
      rw [pyRStrip_append]
      rw [if_pos (by decide)]
      rw [List.append_nil]
      exact pyRStrip_of_getLast hA_last (by decide)
    · refine ⟨'\n' :: prose, ?_, Or.inr rfl⟩
      rw [hwrap]
      obtain ⟨d, hd, hdws⟩ := pyRStrip_self_last hpr hp
      unfold pyStrip
      rw [show (("```json\n".data ++ serJson v ++ "\n```".data)) ++ ('\n' :: prose) =
          '`' :: (("``json\n".data ++ serJson v ++ "\n```".data) ++ ('\n' :: prose)) from rfl]
      rw [pyLStrip_cons_not _ (by decide)]
      rw [show ('`' : Char) :: (("``json\n".data ++ serJson v ++ "\n```".data) ++ ('\n' :: prose)) =
          (("```json\n".data ++ serJson v ++ "\n```".data)) ++ ('\n' :: prose) from rfl]
      exact pyRStrip_of_getLast
        (by rw [List.getLast?_append, getLast?_cons_ne_nil _ hp, hd]; rfl) hdws
  obtain ⟨tl, htl, htlcases⟩ := hstrip
  -- the line structure of the stripped text
  have hlines : splitNl (("```json\n".data ++ serJson v ++ "\n```".data) ++ tl) =
      "```json".data :: serJson v :: ("```".data ++ tl |> splitNl) := by
    rw [show (("```json\n".data ++ serJson v ++ "\n```".data)) ++ tl =
        "```json".data ++ '\n' :: (serJson v ++ '\n' :: ("```".data ++ tl)) from by simp]
    rw [splitNl_append_nl, splitNl_no_nl (by decide), splitNl_append_nl,
      splitNl_no_nl (serJson_noNl v)]
    rfl
  have hpl' : ∃ pl, splitNl ("```".data ++ tl) = "```".data :: pl ∧
      lastIdxWhere isFenceLine pl = none := by
    rcases htlcases with h | h
    · subst h
      exact ⟨[], by decide, rfl⟩
    · subst h
      refine ⟨splitNl prose, ?_, lastIdxWhere_none hpl⟩
      rw [splitNl_append_nl, splitNl_no_nl (by decide)]
      rfl
  obtain ⟨pl, hplsplit, hplnone⟩ := hpl'
  have hlines2 : splitNl (("```json\n".data ++ serJson v ++ "\n```".data) ++ tl) =
      "```json".data :: serJson v :: "```".data :: pl := by
    rw [hlines, hplsplit]
  have h0 : lastIdxWhere isFenceLine ("```".data :: pl) = some 0 := by
    unfold lastIdxWhere
    rw [hplnone]
    rfl
  have h1 : lastIdxWhere isFenceLine (serJson v :: "```".data :: pl) = some 1 := by
    unfold lastIdxWhere
    rw [h0]
  have hidx : lastIdxWhere isFenceLine
      ("```json".data :: serJson v :: "```".data :: pl) = some 2 := by
    unfold lastIdxWhere
    rw [h1]
  have hrcf : removeCodeFences (fenceWrap (serJson v) prose) = serJson v := by
    unfold removeCodeFences
    rw [htl]
    rw [if_pos (by
      rw [show (("```json\n".data ++ serJson v ++ "\n```".data)) ++ tl =
          '`' :: ('`' :: ('`' :: (("json\n".data ++ serJson v ++ "\n```".data) ++ tl))) from rfl]
      simp [List.isPrefixOf])]
    rw [hlines2]
    simp only [hidx, reduceIte]
    rw [show (("```json".data :: serJson v :: "```".data :: pl).take 2).drop 1 = [serJson v] from rfl]
    rw [show joinNl [serJson v] = serJson v from rfl]
    exact pyStrip_serJson v
  have hrcf2 : removeCodeFences (serJson v) = serJson v := by
    unfold removeCodeFences
    rw [pyStrip_serJson]
    rw [if_neg (by rw [serJson_not_fence v]; simp)]
  constructor
  · unfold extractJson
    simp only [hrcf, sanitize_serJson, jsonLoads_serJson]
  · unfold extractJson
    simp only [hrcf2, sanitize_serJson, jsonLoads_serJson]

/-- C3 counterexample: with prose BEFORE the opening fence the stripped text
no longer starts with a fence, so fence stripping does nothing, and for a
non-object value (here the number 5) the brace-scan stages cannot recover:
extraction of the wrapped text fails while extraction of the interior alone
succeeds — refuting the claim for arbitrary prose placement. -/
theorem extract_prose_before_fence_fails :
    extractJson "Note:\n```json\n5\n```".data = none ∧
    extractJson "5".data = some (.num 5) := by
  constructor
  · rfl
  · rfl

/-- Witness for `extract_fenced_agrees` at a concrete object and prose. -/
theorem extract_fenced_agrees_witness :
    extractJson (fenceWrap (serJson (.obj [("a".data, .num 1)])) "Done.".data) =
      some (.obj [("a".data, .num 1)]) ∧
    extractJson (serJson (.obj [("a".data, .num 1)])) = some (.obj [("a".data, .num 1)]) :=
  extract_fenced_agrees (.obj [("a".data, .num 1)]) "Done.".data (by decide) (by decide)

theorem flushPara_para (st : PState) : (flushPara st).para = [] := by
  unfold flushPara
  by_cases h : st.para = []
  · rw [if_pos h]; exact h
  · rw [if_neg h]

theorem noDoubleNl_cons_ne {d : Char} (l : Str) (hd : d ≠ '\n') (hl : noDoubleNl l = true) :
    noDoubleNl (d :: l) = true := by
  cases l with
  | nil => rfl
  | cons e r =>
    unfold noDoubleNl
    rw [hl]
    simp [hd]

theorem noDoubleNl_no_nl {x : Str} (hx : '\n' ∉ x) : noDoubleNl x = true := by
  induction x with
  | nil => rfl
  | cons d t ih =>
    have hd : d ≠ '\n' := by
      intro h
      exact hx (by rw [h]; exact List.mem_cons_self _ _)
    exact noDoubleNl_cons_ne t hd (ih (fun h => hx (List.mem_cons_of_mem _ h)))

theorem noDoubleNl_append_nl {x : Str} (y : Str) (hx : '\n' ∉ x)
    (hy : noDoubleNl y = true) (hyh : ∀ c, y.head? = some c → c ≠ '\n') :
    noDoubleNl (x ++ '\n' :: y) = true := by
  induction x with
  | nil =>
    simp only [List.nil_append]
    cases y with
    | nil => rfl
    | cons c r =>
      have hc : c ≠ '\n' := hyh c rfl
      unfold noDoubleNl
      rw [hy]
      simp [hc]
  | cons d t ih =>
    have hd : d ≠ '\n' := by
      intro h
      refine hx ?_
      rw [h]
      exact List.mem_cons_self _ _
    exact noDoubleNl_cons_ne _ hd
      (ih (fun h => hx (List.mem_cons_of_mem _ h)))

theorem getLast?_append_ne {α : Type} (x : List α) {y : List α} (hy : y ≠ []) :
    (x ++ y).getLast? = y.getLast? := by
  rw [List.getLast?_append]
  cases hyl : y.getLast? with
  | none => exact absurd (List.getLast?_eq_none_iff.mp hyl) hy
  | some d => rfl

theorem bulletClean_last {x : Str} (hx : bulletClean x) :
    ∃ d, x.getLast? = some d ∧ pyIsSpace d = false := by
  obtain ⟨hne, -, -, hlast⟩ := hx
  cases hg : x.getLast? with
  | none => exact absurd (List.getLast?_eq_none_iff.mp hg) hne
  | some d => exact ⟨d, rfl, hlast d hg⟩

theorem noNl_bullet {x : Str} (hx : '\n' ∉ x) : '\n' ∉ ('•' :: ' ' :: x) := by
  intro h
  rcases List.mem_cons.mp h with h | h
  · exact absurd h (by decide)
  rcases List.mem_cons.mp h with h | h
  · exact absurd h (by decide)
  · exact hx h

theorem head_ne_nl_bullet (x : Str) :
    ∀ c, (('•' : Char) :: ' ' :: x).head? = some c → c ≠ '\n' := by
  intro c hcc
  rw [List.head?_cons] at hcc
  injection hcc with h
  subst h
  decide

theorem bulletText_marker {x : Str} (hx : bulletClean x) :
    bulletText ('•' :: ' ' :: x) = x := by
  obtain ⟨hne, hnl, hhd, hlast⟩ := hx
  cases x with
  | nil => exact absurd rfl hne
  | cons h t =>
    obtain ⟨hws, hdash, hstar⟩ := hhd h rfl
    have hsp : h ≠ ' ' := by
      intro hh
      rw [hh] at hws
      exact absurd hws (by decide)
    have hd : ∃ d, (h :: t).getLast? = some d ∧ pyIsSpace d = false := by
      cases hg : (h :: t).getLast? with
      | none => exact absurd (List.getLast?_eq_none_iff.mp hg) (by simp)
      | some d => exact ⟨d, rfl, hlast d hg⟩
    obtain ⟨d, hgl, hdws⟩ := hd
    unfold bulletText
    rw [lstripSet_cons_mem _ (by decide)]
    rw [lstripSet_cons_not _ (by decide)]
    rw [lstripSet_cons_mem _ (by decide)]
    rw [lstripSet_cons_not _ (by simp [hdash, hsp])]
    rw [lstripSet_cons_not _ (by simp [hstar, hsp])]
    exact pyStrip_eq_self rfl hws hgl hdws

theorem pyStrip_bullet {x : Str} (hx : bulletClean x) :
    pyStrip ('•' :: ' ' :: x) = '•' :: ' ' :: x := by
  obtain ⟨d, hgl, hdws⟩ := bulletClean_last hx
  refine pyStrip_eq_self rfl (by decide) ?_ hdws
  rw [getLast?_cons_ne_nil _ (by simp), getLast?_cons_ne_nil _ hx.1]
  exact hgl

theorem processLine_bullet {x : Str} (hx : bulletClean x) (st : PState) :
    processLine ('•' :: ' ' :: x) st =
      some ⟨pushBullet (mkItem x) (flushPara st).blocks, []⟩ := by
  have hline := pyStrip_bullet hx
  unfold processLine
  rw [hline]
  show some (⟨pushBullet (mkItem (bulletText ('•' :: ' ' :: x))) (flushPara st).blocks,
      (flushPara st).para⟩ : PState) = _
  rw [bulletText_marker hx, flushPara_para]

theorem processSection_bullet {x : Str} (hx : bulletClean x) (blocks : List Block) :
    processSection ('•' :: ' ' :: x) blocks = some (pushBullet (mkItem x) blocks) := by
  unfold processSection
  rw [pyStrip_bullet hx, if_neg (by simp), splitNl_no_nl (noNl_bullet hx.2.1)]
  rw [processLines_cons_some _ (processLine_bullet hx ⟨blocks, []⟩)]
  rfl

theorem bulletClean_singleton {ch : Char} (h1 : pyIsSpace ch = false) (h2 : ch ≠ '-')
    (h3 : ch ≠ '*') (h4 : ch ≠ '\n') : bulletClean [ch] := by
  refine ⟨by simp, ?_, ?_, ?_⟩
  · intro hh
    exact h4 (List.mem_singleton.mp hh).symm
  · intro h hh
    simp only [List.head?_cons, Option.some.injEq] at hh
    subst hh
    exact ⟨h1, h2, h3⟩
  · intro h hh
    rw [show ([ch] : Str).getLast? = some ch from rfl] at hh
    injection hh with h'
    subst h'
    exact h1

/-- C8 (amended): three consecutive bullet lines inside one blank-line
section produce exactly one bulletList block with the three items in line
order — but, contrary to the second part of the claim, a blank line between
bullet lines does NOT close the open list: the continuation check looks at
the last block already emitted, which survives across section boundaries,
so the next section's bullets are appended to the same bulletList. -/
theorem bullet_lines_single_list (a b c : Str)
    (ha : bulletClean a) (hb : bulletClean b) (hc : bulletClean c) :
    parseDescription ('•' :: ' ' :: a ++ '\n' :: '•' :: ' ' :: b ++ '\n' :: '•' :: ' ' :: c) =
      some [.bulletList [mkItem a, mkItem b, mkItem c]] ∧
    parseDescription ('•' :: ' ' :: a ++ '\n' :: '\n' :: '•' :: ' ' :: b) =
      some [.bulletList [mkItem a, mkItem b]] := by
  constructor
  · rw [show ('•' :: ' ' :: a ++ '\n' :: '•' :: ' ' :: b ++ '\n' :: '•' :: ' ' :: c) =
        (('•' :: ' ' :: a) ++ '\n' :: (('•' :: ' ' :: b) ++ '\n' :: ('•' :: ' ' :: c)))
        from by simp]
    have hndc : noDoubleNl ('•' :: ' ' :: c) = true :=
      noDoubleNl_cons_ne _ (by decide)
        (noDoubleNl_cons_ne _ (by decide) (noDoubleNl_no_nl hc.2.1))
    have hndbc : noDoubleNl (('•' :: ' ' :: b) ++ '\n' :: ('•' :: ' ' :: c)) = true :=
      noDoubleNl_cons_ne _ (by decide) (noDoubleNl_cons_ne _ (by decide)
        (noDoubleNl_append_nl _ hb.2.1 hndc (head_ne_nl_bullet c)))
    have hnd : noDoubleNl (('•' :: ' ' :: a) ++
        '\n' :: (('•' :: ' ' :: b) ++ '\n' :: ('•' :: ' ' :: c))) = true :=
      noDoubleNl_cons_ne _ (by decide) (noDoubleNl_cons_ne _ (by decide)
        (noDoubleNl_append_nl _ ha.2.1 hndbc
          (head_ne_nl_bullet (b ++ '\n' :: ('•' :: ' ' :: c)))))
    have hsnn : splitNN (('•' :: ' ' :: a) ++
        '\n' :: (('•' :: ' ' :: b) ++ '\n' :: ('•' :: ' ' :: c))) [] =
        [('•' :: ' ' :: a) ++ '\n' :: (('•' :: ' ' :: b) ++ '\n' :: ('•' :: ' ' :: c))] := by
      rw [splitNN_noDoubleNl [] hnd]
      simp
    have hsec : processSection (('•' :: ' ' :: a) ++
        '\n' :: (('•' :: ' ' :: b) ++ '\n' :: ('•' :: ' ' :: c))) [] =
        some [.bulletList [mkItem a, mkItem b, mkItem c]] := by
      obtain ⟨d, hgl, hdws⟩ := bulletClean_last hc
      have hstrip : pyStrip (('•' :: ' ' :: a) ++
          '\n' :: (('•' :: ' ' :: b) ++ '\n' :: ('•' :: ' ' :: c))) =
          (('•' :: ' ' :: a) ++ '\n' :: (('•' :: ' ' :: b) ++ '\n' :: ('•' :: ' ' :: c))) := by
        refine pyStrip_eq_self rfl (by decide) ?_ hdws
        rw [show (('•' :: ' ' :: a) ++ '\n' :: (('•' :: ' ' :: b) ++
            '\n' :: ('•' :: ' ' :: c))) = '•' :: ' ' :: (a ++
            '\n' :: ('•' :: ' ' :: (b ++ '\n' :: ('•' :: ' ' :: c)))) from by simp]
        rw [getLast?_cons_ne_nil _ (by simp), getLast?_cons_ne_nil _ (by simp),
          getLast?_append_ne _ (by simp), getLast?_cons_ne_nil _ (by simp),
          getLast?_cons_ne_nil _ (by simp), getLast?_cons_ne_nil _ (by simp),
          getLast?_append_ne _ (by simp), getLast?_cons_ne_nil _ (by simp),
          getLast?_cons_ne_nil _ (by simp), getLast?_cons_ne_nil _ hc.1]
        exact hgl
      unfold processSection
      rw [hstrip, if_neg (by simp)]
      have hsplit : splitNl (('•' :: ' ' :: a) ++
          '\n' :: (('•' :: ' ' :: b) ++ '\n' :: ('•' :: ' ' :: c))) =
          [('•' :: ' ' :: a), ('•' :: ' ' :: b), ('•' :: ' ' :: c)] := by
        rw [splitNl_append_nl, splitNl_append_nl,
          splitNl_no_nl (noNl_bullet ha.2.1), splitNl_no_nl (noNl_bullet hb.2.1),
          splitNl_no_nl (noNl_bullet hc.2.1)]
        rfl
      rw [hsplit]
      rw [processLines_cons_some _ (processLine_bullet ha ⟨[], []⟩),
        processLines_cons_some _ (processLine_bullet hb _),
        processLines_cons_some _ (processLine_bullet hc _)]
      rfl
    unfold parseDescription
    rw [if_neg (by simp)]
    rw [hsnn]
    rw [processSections_cons_some _ hsec]
    rfl
  · rw [show ('•' :: ' ' :: a ++ '\n' :: '\n' :: '•' :: ' ' :: b) =
        (('•' :: ' ' :: a) ++ '\n' :: '\n' :: ('•' :: ' ' :: b)) from by simp]
    have hsplit2 : splitNN (('•' :: ' ' :: a) ++ '\n' :: '\n' :: ('•' :: ' ' :: b)) [] =
        [('•' :: ' ' :: a), ('•' :: ' ' :: b)] := by
      rw [splitNN_append_noNl _ _ (noNl_bullet ha.2.1)]
      rw [show splitNN ('\n' :: '\n' :: ('•' :: ' ' :: b)) (('•' :: ' ' :: a).reverse ++ []) =
          (('•' :: ' ' :: a).reverse ++ []).reverse :: splitNN ('•' :: ' ' :: b) [] from by
        conv_lhs => rw [splitNN]
        rw [if_pos ⟨rfl, rfl⟩]]
      rw [splitNN_noDoubleNl [] (noDoubleNl_cons_ne _ (by decide)
        (noDoubleNl_cons_ne _ (by decide) (noDoubleNl_no_nl hb.2.1)))]
      simp
    unfold parseDescription
    rw [if_neg (by simp)]
    rw [hsplit2]
    rw [processSections_cons_some _ (processSection_bullet ha [])]
    rw [processSections_cons_some _ (processSection_bullet hb _)]
    rfl

/-- C8 counterexample: a blank line between two bullet lines does NOT close
the open list — the bot yields one bulletList with both items, not two
separate single-item bulletLists as the claim's closing rule asserts. -/
theorem blank_line_keeps_list_open :
    parseDescription "• a\n\n• b".data = some [.bulletList [mkItem ['a'], mkItem ['b']]] ∧
    parseDescription "• a\n\n• b".data ≠
      some [.bulletList [mkItem ['a']], .bulletList [mkItem ['b']]] := by
  constructor
  · rfl
  · decide

/-- Witness for `bullet_lines_single_list` at concrete one-letter items. -/
theorem bullet_lines_single_list_witness :
    parseDescription "• x\n• y\n• z".data =
      some [.bulletList [mkItem ['x'], mkItem ['y'], mkItem ['z']]] ∧
    parseDescription "• x\n\n• y".data = some [.bulletList [mkItem ['x'], mkItem ['y']]] :=
  bullet_lines_single_list ['x'] ['y'] ['z']
    (bulletClean_singleton (by decide) (by decide) (by decide) (by decide))
    (bulletClean_singleton (by decide) (by decide) (by decide) (by decide))
    (bulletClean_singleton (by decide) (by decide) (by decide) (by decide))


theorem processLine_em_gen (M : Str) (st : PState)
    (hline : pyStrip ('_' :: M) = '_' :: M)
    (hlast : ('_' :: M).getLast? = some '_') :
    processLine ('_' :: M) st =
      some ⟨st.blocks, st.para ++ [.text (stripSet ['_'] ('_' :: M)) [.em]]⟩ := by
  have hl : lastIs '_' ('_' :: M) = true := by
    unfold lastIs
    rw [hlast]
    rfl
  have h3 : (decide (2 < ('_' :: M).length) && pyIsDigit (('_' :: M).headD ' ') &&
      (('_' :: M).getD 1 ' ' == '.')) = false := by
    simp only [show pyIsDigit (('_' :: M).headD ' ') = false from rfl,
      Bool.and_false, Bool.false_and]
  have c1 : (headIs '*' ('_' :: M) && lastIs '*' ('_' :: M) &&
      decide (2 < ('_' :: M).length)) = false := by
    rw [show headIs '*' ('_' :: M) = false from rfl]
    simp
  have c2 : (headIs '•' ('_' :: M) || ['-', ' '].isPrefixOf ('_' :: M) ||
      ['*', ' '].isPrefixOf ('_' :: M)) = false := by
    rw [show headIs '•' ('_' :: M) = false from rfl,
      show (['-', ' '].isPrefixOf ('_' :: M)) = false from rfl,
      show (['*', ' '].isPrefixOf ('_' :: M)) = false from rfl]
    rfl
  have c4 : (['-', '-', '-'].isPrefixOf ('_' :: M)) = false := rfl
  have c5 : (headIs '_' ('_' :: M) && lastIs '_' ('_' :: M)) = true := by
    rw [show headIs '_' ('_' :: M) = true from rfl, hl]
    rfl
  unfold processLine
  simp only [hline]
  rw [if_neg (by simp)]
  rw [if_neg (by rw [c1]; simp)]
  rw [if_neg (by rw [c2]; simp)]
  rw [if_neg (by rw [h3]; simp)]
  rw [if_neg (by rw [c4]; simp)]
  rw [if_pos c5]

theorem processSection_tail (uid : Str) (hnl : '\n' ∉ uid) (B : List Block) :
    processSection ("---".data ++ '\n' ::
        ('_' :: (("Created via Slack by <@".data ++ uid ++ ['>']) ++ ['_']))) B =
      some (B ++ [.rule, .paragraph
        [.text ("Created via Slack by <@".data ++ uid ++ ['>']) [.em]]]) := by
  have hgl : ('_' :: (("Created via Slack by <@".data ++ uid ++ ['>']) ++ ['_'])).getLast? =
      some '_' := by
    rw [getLast?_cons_ne_nil _ (by simp), getLast?_append_ne _ (by simp)]
    rfl
  have hline : pyStrip ('_' :: (("Created via Slack by <@".data ++ uid ++ ['>']) ++ ['_'])) =
      '_' :: (("Created via Slack by <@".data ++ uid ++ ['>']) ++ ['_']) :=
    pyStrip_eq_self rfl (by decide) hgl (by decide)
  have hK : (("Created via Slack by <@".data ++ uid ++ ['>']) : Str).getLast? = some '>' := by
    rw [getLast?_append_ne _ (show (['>'] : Str) ≠ [] by simp)]
    rfl
  have hstrip : stripSet ['_']
      ('_' :: (("Created via Slack by <@".data ++ uid ++ ['>']) ++ ['_'])) =
      "Created via Slack by <@".data ++ uid ++ ['>'] := by
    unfold stripSet
    rw [lstripSet_cons_mem _ (by decide)]
    rw [show (("Created via Slack by <@".data ++ uid ++ ['>']) ++ ['_'] : Str) =
        'C' :: (("reated via Slack by <@".data ++ uid ++ ['>']) ++ ['_']) from by simp]
    rw [lstripSet_cons_not _ (by decide)]
    rw [show ('C' : Char) :: (("reated via Slack by <@".data ++ uid ++ ['>']) ++ ['_']) =
        ("Created via Slack by <@".data ++ uid ++ ['>']) ++ ['_'] from by simp]
    rw [rstripSet_append_single _ (by decide)]
    exact rstripSet_of_getLast hK (by decide)
  have hemnl : '\n' ∉ ('_' :: (("Created via Slack by <@".data ++ uid ++ ['>']) ++ ['_'])) := by
    intro h
    rcases List.mem_cons.mp h with h | h
    · exact absurd h (by decide)
    rcases List.mem_append.mp h with h | h
    · rcases List.mem_append.mp h with h | h
      · rcases List.mem_append.mp h with h | h
        · exact absurd h (by decide)
        · exact hnl h
      · exact absurd h (by decide)
    · exact absurd h (by decide)
  have hne : pyStrip ("---".data ++ '\n' ::
      ('_' :: (("Created via Slack by <@".data ++ uid ++ ['>']) ++ ['_']))) ≠ [] := by
    rw [show ("---".data ++ '\n' ::
        ('_' :: (("Created via Slack by <@".data ++ uid ++ ['>']) ++ ['_'])) : Str) =
        '-' :: ("--".data ++ '\n' ::
        ('_' :: (("Created via Slack by <@".data ++ uid ++ ['>']) ++ ['_']))) from by simp]
    exact pyStrip_cons_ne_nil _ (by decide)
  unfold processSection
  rw [if_neg hne]
  rw [splitNl_append_nl, splitNl_no_nl (by decide), splitNl_no_nl hemnl]
  simp only [List.singleton_append]
  rw [processLines_cons_some _
    (show processLine "---".data (⟨B, []⟩ : PState) = some ⟨B ++ [.rule], []⟩ from rfl)]
  rw [processLines_cons_some _ (processLine_em_gen _ _ hline hgl)]
  rw [hstrip]
  simp [processLines, flushPara]

theorem processSection_cons_nl (sec : Str) (B : List Block) :
    processSection ('\n' :: sec) B = processSection sec B := by
  unfold processSection
  have h1 : pyStrip ('\n' :: sec) = pyStrip sec := by
    unfold pyStrip pyLStrip
    rw [List.dropWhile_cons_of_pos (by decide)]
  rw [h1]
  have h2 : splitNl ('\n' :: sec) = [] :: splitNl sec := by
    conv_lhs => rw [splitNl]
    rw [if_pos rfl]
  rw [h2]
  rw [processLines_cons_some _
    (show processLine [] (⟨B, []⟩ : PState) = some ⟨B, []⟩ from rfl)]

theorem flushPara_blocks_cases (st : PState) :
    (flushPara st).blocks = st.blocks ∨
    (flushPara st).blocks = st.blocks ++ [.paragraph st.para] := by
  unfold flushPara
  by_cases h : st.para = []
  · rw [if_pos h]
    left
    rfl
  · rw [if_neg h]
    right
    rfl

theorem flushPara_head_cons {b0 : Block} {tl : List Block} (st : PState)
    (hb : st.blocks = b0 :: tl) :
    ∃ tl2, (flushPara st).blocks = b0 :: tl2 := by
  rcases flushPara_blocks_cases st with h | h
  · exact ⟨tl, by rw [h, hb]⟩
  · exact ⟨tl ++ [.paragraph st.para], by rw [h, hb]; rfl⟩

theorem pushBullet_head_heading (itm : Item) (n : Nat) (xs : List Inline) (tl : List Block) :
    (pushBullet itm (Block.heading n xs :: tl)).head? = some (.heading n xs) := by
  cases tl with
  | nil => rfl
  | cons b1 tl' =>
    unfold pushBullet
    cases hgl : (Block.heading n xs :: b1 :: tl').getLast? with
    | none => simp
    | some b => cases b <;> simp [List.dropLast]

theorem pushOrdered_head_heading (itm : Item) (ord : Option Nat) (n : Nat)
    (xs : List Inline) (tl : List Block) {bs : List Block}
    (h : pushOrdered itm ord (Block.heading n xs :: tl) = some bs) :
    bs.head? = some (.heading n xs) := by
  unfold pushOrdered at h
  split at h
  · rename_i o items hgl
    injection h with h2
    rw [← h2]
    cases tl with
    | nil => simp at hgl
    | cons b1 tl' =>
      rw [show (Block.heading n xs :: b1 :: tl').dropLast =
        Block.heading n xs :: (b1 :: tl').dropLast from rfl]
      rfl
  · split at h
    · injection h with h2
      rw [← h2]
      rfl
    · exact Option.noConfusion h

theorem processLine_head_heading (l : Str) (st : PState) {st' : PState} {n : Nat}
    {xs : List Inline} (hsome : processLine l st = some st')
    (h : st.blocks.head? = some (.heading n xs)) :
    st'.blocks.head? = some (.heading n xs) := by
  obtain ⟨tl, hb⟩ : ∃ tl, st.blocks = Block.heading n xs :: tl := by
    cases hsb : st.blocks with
    | nil => rw [hsb] at h; simp at h
    | cons b0 tl =>
      rw [hsb] at h
      simp only [List.head?_cons, Option.some.injEq] at h
      exact ⟨tl, by rw [← h]⟩
  obtain ⟨tl2, hfb⟩ := flushPara_head_cons st hb
  simp only [processLine] at hsome
  split at hsome
  · injection hsome with h2
    rw [← h2]
    exact h
  split at hsome
  · injection hsome with h2
    rw [← h2]
    simp [hfb]
  split at hsome
  · injection hsome with h2
    rw [← h2]
    show (pushBullet (mkItem (bulletText (pyStrip l))) (flushPara st).blocks).head? = _
    rw [hfb]
    exact pushBullet_head_heading _ n xs tl2
  split at hsome
  · split at hsome
    · rename_i bs hpo
      injection hsome with h2
      rw [← h2]
      show bs.head? = _
      rw [hfb] at hpo
      exact pushOrdered_head_heading _ _ n xs tl2 hpo
    · exact Option.noConfusion hsome
  split at hsome
  · injection hsome with h2
    rw [← h2]
    simp [hfb]
  split at hsome
  · injection hsome with h2
    rw [← h2]
    exact h
  · injection hsome with h2
    rw [← h2]
    exact h

theorem processLines_head {n : Nat} {xs : List Inline} (ls : List Str) :
    ∀ (st st' : PState), processLines ls st = some st' →
    st.blocks.head? = some (.heading n xs) → st'.blocks.head? = some (.heading n xs) := by
  induction ls with
  | nil =>
    intro st st' hsome h
    injection hsome with h2
    rw [← h2]
    exact h
  | cons l ls' ih =>
    intro st st' hsome h
    cases hpl : processLine l st with
    | none =>
      have h2 : (match processLine l st with
        | some st1 => processLines ls' st1
        | none => none) = some st' := hsome
      rw [hpl] at h2
      exact Option.noConfusion h2
    | some st1 =>
      rw [processLines_cons_some ls' hpl] at hsome
      exact ih st1 st' hsome (processLine_head_heading l st hpl h)

theorem processSection_head_heading (sec : Str) (blocks : List Block)
    {blocks' : List Block} {n : Nat} {xs : List Inline}
    (hsome : processSection sec blocks = some blocks')
    (h : blocks.head? = some (.heading n xs)) :
    blocks'.head? = some (.heading n xs) := by
  unfold processSection at hsome
  split at hsome
  · injection hsome with h2
    rw [← h2]
    exact h
  · cases hpl : processLines (splitNl sec) (⟨blocks, []⟩ : PState) with
    | none => rw [hpl] at hsome; exact Option.noConfusion hsome
    | some stF =>
      rw [hpl] at hsome
      injection hsome with h2
      have h3 := processLines_head (splitNl sec) ⟨blocks, []⟩ stF hpl h
      rw [← h2]
      cases hF : stF.blocks with
      | nil => rw [hF] at h3; simp at h3
      | cons b0 tl =>
        rw [hF] at h3
        simp only [List.head?_cons, Option.some.injEq] at h3
        obtain ⟨tl2, h4⟩ := flushPara_head_cons _ hF
        rw [h4, ← h3]
        rfl

theorem processSections_head {n : Nat} {xs : List Inline} (ss : List Str) :
    ∀ (bs bs' : List Block), processSections ss bs = some bs' →
    bs.head? = some (.heading n xs) → bs'.head? = some (.heading n xs) := by
  induction ss with
  | nil =>
    intro bs bs' hsome h
    injection hsome with h2
    rw [← h2]
    exact h
  | cons s ss' ih =>
    intro bs bs' hsome h
    cases hps : processSection s bs with
    | none =>
      have h2 : (match processSection s bs with
        | some bs1 => processSections ss' bs1
        | none => none) = some bs' := hsome
      rw [hps] at h2
      exact Option.noConfusion h2
    | some bs1 =>
      rw [processSections_cons_some ss' hps] at hsome
      exact ih bs1 bs' hsome (processSection_head_heading s bs hps h)

theorem processSections_cons_inv {s : Str} {ss : List Str} {bs out : List Block}
    (h : processSections (s :: ss) bs = some out) :
    ∃ bs', processSection s bs = some bs' ∧ processSections ss bs' = some out := by
  cases hs : processSection s bs with
  | none =>
    have h2 : (match processSection s bs with
      | some bs' => processSections ss bs'
      | none => none) = some out := h
    rw [hs] at h2
    exact Option.noConfusion h2
  | some bs' =>
    have h2 : (match processSection s bs with
      | some bs' => processSections ss bs'
      | none => none) = some out := h
    rw [hs] at h2
    exact ⟨bs', rfl, h2⟩

theorem processSections_append_inv {init : List Str} {slast : Str} :
    ∀ {bs out : List Block}, processSections (init ++ [slast]) bs = some out →
    ∃ mid, processSections init bs = some mid ∧ processSection slast mid = some out := by
  induction init with
  | nil =>
    intro bs out h
    obtain ⟨bs', h1, h2⟩ := processSections_cons_inv h
    injection h2 with h3
    rw [h3] at h1
    exact ⟨bs, rfl, h1⟩
  | cons s init' ih =>
    intro bs out h
    obtain ⟨bs', h1, h2⟩ := processSections_cons_inv h
    obtain ⟨mid, h3, h4⟩ := ih h2
    refine ⟨mid, ?_, h4⟩
    rw [processSections_cons_some _ h1]
    exact h3

theorem headChunk_goal (R : Str) :
    ∃ tail0, headChunk ("*Goal*\n".data ++ R) = "*Goal*".data ++ tail0 ∧
      (tail0 = [] ∨ ∃ t, tail0 = '\n' :: t) := by
  have hpre : headChunk ("*Goal*\n".data ++ R) = "*Goal*".data ++ headChunk ('\n' :: R) := rfl
  cases R with
  | nil => exact ⟨['\n'], by rw [hpre]; rfl, Or.inr ⟨[], rfl⟩⟩
  | cons r0 R' =>
    by_cases h0 : r0 = '\n'
    · subst h0
      refine ⟨[], ?_, Or.inl rfl⟩
      rw [hpre]
      rw [show headChunk ('\n' :: '\n' :: R') = [] from by
        conv_lhs => rw [headChunk]
        rw [if_pos ⟨rfl, rfl⟩]]
    · refine ⟨'\n' :: headChunk (r0 :: R'), ?_, Or.inr ⟨_, rfl⟩⟩
      rw [hpre]
      rw [show headChunk ('\n' :: r0 :: R') = '\n' :: headChunk (r0 :: R') from by
        conv_lhs => rw [headChunk]
        rw [if_neg (by simp [h0])]]

theorem processSection_goal (tail0 : Str) (h : tail0 = [] ∨ ∃ t, tail0 = '\n' :: t)
    {B1 : List Block} (hsome : processSection ("*Goal*".data ++ tail0) [] = some B1) :
    B1.head? = some (.heading 3 [.text "Goal".data []]) := by
  have hfirst : processLine "*Goal*".data (⟨[], []⟩ : PState) =
      some ⟨[.heading 3 [.text "Goal".data []]], []⟩ := rfl
  obtain ⟨rest, hrest⟩ : ∃ rest, splitNl ("*Goal*".data ++ tail0) =
      "*Goal*".data :: rest := by
    rcases h with h | ⟨t, h⟩
    · subst h
      exact ⟨[], by rw [List.append_nil, splitNl_no_nl (by decide)]⟩
    · subst h
      exact ⟨splitNl t, by rw [splitNl_append_nl, splitNl_no_nl (by decide)]; rfl⟩
  unfold processSection at hsome
  rw [if_neg (by
    rw [show ("*Goal*".data ++ tail0 : Str) = '*' :: ("Goal*".data ++ tail0) from by simp]
    exact pyStrip_cons_ne_nil _ (by decide))] at hsome
  rw [hrest, processLines_cons_some _ hfirst] at hsome
  cases hpl : processLines rest (⟨[.heading 3 [.text "Goal".data []]], []⟩ : PState) with
  | none => rw [hpl] at hsome; exact Option.noConfusion hsome
  | some stF =>
    rw [hpl] at hsome
    injection hsome with h2
    have h3 := processLines_head rest ⟨[.heading 3 [.text "Goal".data []]], []⟩ stF hpl rfl
    rw [← h2]
    cases hF : stF.blocks with
    | nil => rw [hF] at h3; simp at h3
    | cons b0 tl =>
      rw [hF] at h3
      simp only [List.head?_cons, Option.some.injEq] at h3
      obtain ⟨tl2, h4⟩ := flushPara_head_cons _ hF
      rw [h4, ← h3]
      rfl

theorem emline_no_nl (uid : Str) (hnl : '\n' ∉ uid) :
    '\n' ∉ ('_' :: (("Created via Slack by <@".data ++ uid ++ ['>']) ++ ['_'])) := by
  intro h
  rcases List.mem_cons.mp h with h | h
  · exact absurd h (by decide)
  rcases List.mem_append.mp h with h | h
  · rcases List.mem_append.mp h with h | h
    · rcases List.mem_append.mp h with h | h
      · exact absurd h (by decide)
      · exact hnl h
    · exact absurd h (by decide)
  · exact absurd h (by decide)

theorem mem_joinNl {c : Char} : ∀ {ss : List Str}, c ∈ joinNl ss →
    c = '\n' ∨ ∃ s ∈ ss, c ∈ s := by
  intro ss
  induction ss with
  | nil => intro h; simp [joinNl] at h
  | cons s ss' ih =>
    intro h
    cases ss' with
    | nil =>
      right
      exact ⟨s, by simp, h⟩
    | cons s2 ss'' =>
      have h2 : c ∈ s ++ '\n' :: joinNl (s2 :: ss'') := h
      rcases List.mem_append.mp h2 with h3 | h3
      · right; exact ⟨s, by simp, h3⟩
      · rcases List.mem_cons.mp h3 with h3 | h3
        · left; exact h3
        · rcases ih h3 with h4 | ⟨x, hx1, hx2⟩
          · left; exact h4
          · right; exact ⟨x, by simp [hx1], hx2⟩

theorem mem_formatDescription {c : Char} {goal desc uid : Str} {criteria : List Str}
    (h : c ∈ formatDescription goal desc criteria uid) :
    c.toNat ≤ 127 ∨ c = '•' ∨ c ∈ goal ∨ c ∈ desc ∨
      (∃ x ∈ criteria, c ∈ x) ∨ c ∈ uid := by
  simp only [formatDescription] at h
  rcases List.mem_append.mp h with h | h
  · rcases List.mem_append.mp h with h | h
    · rcases List.mem_append.mp h with h | h
      · rcases List.mem_append.mp h with h | h
        · rcases List.mem_append.mp h with h | h
          · rcases List.mem_append.mp h with h | h
            · rcases List.mem_append.mp h with h | h
              · rcases List.mem_append.mp h with h | h
                · exact Or.inl ((by decide :
                    ∀ x ∈ ("*Goal*\n".data : Str), x.toNat ≤ 127) c h)
                · exact Or.inr (Or.inr (Or.inl h))
              · exact Or.inl ((by decide :
                  ∀ x ∈ ("\n\n*Description*\n".data : Str), x.toNat ≤ 127) c h)
            · exact Or.inr (Or.inr (Or.inr (Or.inl h)))
          · exact Or.inl ((by decide :
              ∀ x ∈ ("\n\n*Acceptance Criteria*\n".data : Str), x.toNat ≤ 127) c h)
        · rcases mem_joinNl h with h | ⟨s, hs, hcs⟩
          · exact Or.inl (by subst h; decide)
          · obtain ⟨x, hx, hxs⟩ := List.mem_map.mp hs
            subst hxs
            rcases List.mem_cons.mp hcs with h | h
            · exact Or.inr (Or.inl h)
            rcases List.mem_cons.mp h with h | h
            · exact Or.inl (by subst h; decide)
            · exact Or.inr (Or.inr (Or.inr (Or.inr (Or.inl ⟨x, hx, h⟩))))
      · exact Or.inl ((by decide :
          ∀ x ∈ ("\n\n---\n_Created via Slack by <@".data : Str), x.toNat ≤ 127) c h)
    · exact Or.inr (Or.inr (Or.inr (Or.inr (Or.inr h))))
  · exact Or.inl ((by decide : ∀ x ∈ (">_".data : Str), x.toNat ≤ 127) c h)

/-- C10 (amended): for every ASCII goal, description and acceptance-criteria
list (characters below `0x80`) and every ASCII user identifier containing no
newline, the Converter succeeds on the output of `format_description` and
yields a document that begins with a level-3 heading whose text is "Goal"
and ends with a rule block followed by a paragraph holding a single
emphasis-marked text run "Created via Slack by <@user_id>".  Both
restrictions are necessary: a description such as `"².x"` makes
`_parse_description` raise before any document exists, and a newline inside
the user id tears the final line apart. -/
theorem format_description_head_tail (goal desc : Str) (criteria : List Str)
    (uid : Str) (hnl : '\n' ∉ uid)
    (hg : ∀ c ∈ goal, c.toNat ≤ 127) (hd : ∀ c ∈ desc, c.toNat ≤ 127)
    (hcr : ∀ x ∈ criteria, ∀ c ∈ x, c.toNat ≤ 127) (hu : ∀ c ∈ uid, c.toNat ≤ 127) :
    ∃ doc, parseDescription (formatDescription goal desc criteria uid) = some doc ∧
      doc.head? = some (.heading 3 [.text "Goal".data []]) ∧
      ∃ B, doc = B ++ [.rule, .paragraph
        [.text ("Created via Slack by <@".data ++ uid ++ ['>']) [.em]]] := by
  have hnb : ∀ s ∈ splitNN (formatDescription goal desc criteria uid) [],
      ∀ c ∈ s, pyIsDigit c = true → c.isDigit = true := by
    intro s hs c hc hdig
    have hmem : c ∈ formatDescription goal desc criteria uid := by
      rcases mem_splitNN _ [] s hs c hc with h | h
      · exact h
      · simp at h
    rcases mem_formatDescription hmem with h | h | h | h | ⟨x, hx, hcx⟩ | h
    · exact pyIsDigit_ascii h hdig
    · subst h; exact absurd hdig (by decide)
    · exact pyIsDigit_ascii (hg c h) hdig
    · exact pyIsDigit_ascii (hd c h) hdig
    · exact pyIsDigit_ascii (hcr x hx c hcx) hdig
    · exact pyIsDigit_ascii (hu c h) hdig
  obtain ⟨blocks, hps⟩ := processSections_isSome
    (splitNN (formatDescription goal desc criteria uid) []) [] hnb
  have h1 : formatDescription goal desc criteria uid =
      "*Goal*\n".data ++ (goal ++ ("\n\n*Description*\n".data ++ (desc ++
        ("\n\n*Acceptance Criteria*\n".data ++
        (joinNl (criteria.map (fun c => '•' :: ' ' :: c)) ++
        ("\n\n---\n_Created via Slack by <@".data ++ (uid ++ ">_".data))))))) := by
    unfold formatDescription
    simp
  have h2 : formatDescription goal desc criteria uid =
      ("*Goal*\n".data ++ goal ++ "\n\n*Description*\n".data ++ desc ++
        "\n\n*Acceptance Criteria*\n".data ++
        joinNl (criteria.map (fun c => '•' :: ' ' :: c))) ++ '\n' :: '\n' ::
      ("---".data ++ '\n' ::
        ('_' :: (("Created via Slack by <@".data ++ uid ++ ['>']) ++ ['_']))) := by
    unfold formatDescription
    simp
  have hpsH := hps
  rw [h1] at hpsH
  obtain ⟨ss, hss⟩ := splitNN_headChunk ("*Goal*\n".data ++ (goal ++
    ("\n\n*Description*\n".data ++ (desc ++ ("\n\n*Acceptance Criteria*\n".data ++
    (joinNl (criteria.map (fun c => '•' :: ' ' :: c)) ++
    ("\n\n---\n_Created via Slack by <@".data ++ (uid ++ ">_".data)))))))) []
  simp only [List.reverse_nil, List.nil_append] at hss
  obtain ⟨tail0, htc, hcases⟩ := headChunk_goal (goal ++
    ("\n\n*Description*\n".data ++ (desc ++ ("\n\n*Acceptance Criteria*\n".data ++
    (joinNl (criteria.map (fun c => '•' :: ' ' :: c)) ++
    ("\n\n---\n_Created via Slack by <@".data ++ (uid ++ ">_".data)))))))
  rw [htc] at hss
  rw [hss] at hpsH
  obtain ⟨B1, hB1, hrest⟩ := processSections_cons_inv hpsH
  have hheadB1 := processSection_goal tail0 hcases hB1
  have hhead := processSections_head ss B1 blocks hrest hheadB1
  have hpsT := hps
  rw [h2] at hpsT
  have hy : noDoubleNl ("---".data ++ '\n' ::
      ('_' :: (("Created via Slack by <@".data ++ uid ++ ['>']) ++ ['_']))) = true := by
    apply noDoubleNl_append_nl
    · decide
    · exact noDoubleNl_no_nl (emline_no_nl uid hnl)
    · intro c hc
      rw [List.head?_cons] at hc
      injection hc with h'
      subst h'
      decide
  have hh : ("---".data ++ '\n' ::
      ('_' :: (("Created via Slack by <@".data ++ uid ++ ['>']) ++ ['_']))).head? ≠
      some '\n' := by
    intro hcon
    rw [show ("---".data ++ '\n' ::
      ('_' :: (("Created via Slack by <@".data ++ uid ++ ['>']) ++ ['_'])) : Str).head? =
      some '-' from rfl] at hcon
    exact absurd hcon (by decide)
  have hlast := splitNN_last (("*Goal*\n".data ++ goal ++ "\n\n*Description*\n".data ++
    desc ++ "\n\n*Acceptance Criteria*\n".data ++
    joinNl (criteria.map (fun c => '•' :: ' ' :: c)))) [] hy hh
  have htail : ∃ B, blocks = B ++ [.rule, .paragraph
      [.text ("Created via Slack by <@".data ++ uid ++ ['>']) [.em]]] := by
    rcases hlast with hl1 | hl1
    · obtain ⟨init, hinit⟩ := List.getLast?_eq_some_iff.mp hl1
      rw [hinit] at hpsT
      obtain ⟨mid, hmid, hfin⟩ := processSections_append_inv hpsT
      rw [processSection_tail uid hnl mid] at hfin
      injection hfin with h3
      exact ⟨mid, h3.symm⟩
    · obtain ⟨init, hinit⟩ := List.getLast?_eq_some_iff.mp hl1
      rw [hinit] at hpsT
      obtain ⟨mid, hmid, hfin⟩ := processSections_append_inv hpsT
      rw [processSection_cons_nl, processSection_tail uid hnl mid] at hfin
      injection hfin with h3
      exact ⟨mid, h3.symm⟩
  refine ⟨blocks, ?_, hhead, htail⟩
  unfold parseDescription
  rw [if_neg (by rw [h1]; simp)]
  rw [hps]
  show some (if blocks = [] then
    [.paragraph [.text (formatDescription goal desc criteria uid) []]] else blocks) =
    some blocks
  rw [if_neg (by
    intro hcon
    rw [hcon] at hhead
    simp at hhead)]

/-- C10 counterexample: the head/tail property cannot hold over every input —
with description `"².x"` the Converter raises (`int('²')` fails although
`'²'.isdigit()` holds) and no document is produced at all, and with a
newline pair inside the user id the final line is torn apart and the
document does not end with the rule-plus-emphasis pair for that id. -/
theorem format_description_not_universal :
    parseDescription (formatDescription "G".data "².x".data ["c".data] "U1".data) = none ∧
    ¬ ∃ doc B, parseDescription (formatDescription "G".data "D".data ["c".data]
        "U\n\nX".data) = some doc ∧
      doc = B ++ [.rule, .paragraph
        [.text ("Created via Slack by <@".data ++ "U\n\nX".data ++ ['>']) [.em]]] := by
  constructor
  · rfl
  · intro ⟨doc, B, h1, h2⟩
    have h3 := congrArg (Option.map List.getLast?) h1
    rw [Option.map_some'] at h3
    rw [h2, getLast?_append_ne _ (by simp)] at h3
    exact absurd h3 (by decide)

/-- Witness for `format_description_head_tail` at concrete ASCII inputs. -/
theorem format_description_head_tail_witness :
    ∃ doc, parseDescription (formatDescription "G".data "D".data ["c".data] "U1".data) =
        some doc ∧
      doc.head? = some (.heading 3 [.text "Goal".data []]) ∧
      ∃ B, doc = B ++ [.rule, .paragraph
        [.text ("Created via Slack by <@".data ++ "U1".data ++ ['>']) [.em]]] :=
  format_description_head_tail "G".data "D".data ["c".data] "U1".data
    (by decide) (by decide) (by decide) (by decide) (by decide)
